import Mathlib

/-!
# Verification of the AppShell grid core (`src/core/TableCore.tsx`)

Shallow embedding of the grid-core logic: date parsing/formatting, the
hierarchy/visibility engine, selection and navigation, the editing-session
commit machinery, clipboard paste, indent adjustment and column reorder.

Modelling conventions:
* JavaScript strings are modelled as `List Char` (`Str`).
* JavaScript `Date` instants are modelled by a day count (days since
  0000-03-01 in the proleptic Gregorian calendar) plus a seconds-of-day
  field, following the ECMAScript local-calendar construction
  (`MakeDay` / `MakeTime` / `TimeClip`) used by `new Date(y, m, d, h, mi, s)`.
* The host-owned row collection is modelled with an explicit heap
  (`Heap` = list of row objects, addressed by position) so that the
  in-place/ fresh-object distinction of the source is observable.
* Fallible operations return `Option`.
-/

namespace TableCore

/-- JavaScript strings as character lists. -/
abbrev Str := List Char

/-! ## Digit and string primitives -/

/-- The regex `\d` character class. -/
def isDigitC (c : Char) : Bool := decide (48 ≤ c.toNat) && decide (c.toNat ≤ 57)

/-- The regex `\s` character class / the whitespace removed by `trim`
(restricted to the ASCII whitespace characters; the exotic Unicode space
characters JavaScript also accepts never occur in the strings considered
here). -/
def isWSC (c : Char) : Bool :=
  c == ' ' || c == '\t' || c == '\n' || c == '\r' || c == '\x0b' || c == '\x0c'

/-- Numeric value of a digit character. -/
def digitVal (c : Char) : Nat := c.toNat - 48

/-- The decimal digit character for `n ≤ 9`. -/
def digitChar (n : Nat) : Char :=
  match n with
  | 0 => '0'
  | 1 => '1'
  | 2 => '2'
  | 3 => '3'
  | 4 => '4'
  | 5 => '5'
  | 6 => '6'
  | 7 => '7'
  | 8 => '8'
  | _ => '9'

/-- Value of an all-digit string (what `Number(...)` returns on a captured
all-digit regex group). -/
def digitsToNat (s : Str) : Nat := s.foldl (fun acc c => 10 * acc + digitVal c) 0

/-- `String.prototype.trim`. -/
def jsTrim (s : Str) : Str :=
  (((s.dropWhile isWSC).reverse).dropWhile isWSC).reverse

/-- Decimal rendering of a natural number (ECMAScript `String(n)` for
naturals), via an explicit fuel so the definition reduces in the kernel. -/
def natStrAux : Nat → Nat → Str
  | 0, _ => []
  | fuel + 1, n =>
    if n < 10 then [digitChar n]
    else natStrAux fuel (n / 10) ++ [digitChar (n % 10)]

/-- Decimal rendering of a natural number. -/
def natStr (n : Nat) : Str := natStrAux (n + 1) n

/-- `String(..).padStart(2, "0")`. -/
def padStart2 (s : Str) : Str := List.replicate (2 - s.length) '0' ++ s

/-! ## The ECMAScript `Date` model -/

/-- Day count since 0000-03-01 for a (proleptic Gregorian) civil date.
Standard era/year-of-era arithmetic over 400-year cycles; only used with
`1 ≤ y`, `1 ≤ m ≤ 12`, `1 ≤ d`. -/
def daysFromCivil (y m d : Nat) : Nat :=
  let y1 := if m ≤ 2 then y - 1 else y
  let era := y1 / 400
  let yoe := y1 % 400
  let mp := if 2 < m then m - 3 else m + 9
  let doy := (153 * mp + 2) / 5 + (d - 1)
  let doe := yoe * 365 + yoe / 4 - yoe / 100 + doy
  era * 146097 + doe

/-- Civil date `(year, month, day)` of a day count since 0000-03-01. -/
def civilFromDays (z : Nat) : Nat × Nat × Nat :=
  let era := z / 146097
  let doe := z % 146097
  let yoe := (doe - doe / 1460 + doe / 36524 - doe / 146096) / 365
  let y := yoe + era * 400
  let doy := doe - (365 * yoe + yoe / 4 - yoe / 100)
  let mp := (5 * doy + 2) / 153
  let d := doy - (153 * mp + 2) / 5 + 1
  let m := if mp < 10 then mp + 3 else mp - 9
  (if m ≤ 2 then y + 1 else y, m, d)

/-- Gregorian month length. -/
def daysInMonth (y m : Nat) : Nat :=
  if m = 2 then
    if y % 4 = 0 ∧ (y % 100 ≠ 0 ∨ y % 400 = 0) then 29 else 28
  else if m = 4 ∨ m = 6 ∨ m = 9 ∨ m = 11 then 30
  else 31

/-- A JavaScript `Date` instant, restricted to the fields this code reads:
local calendar date (as a day count since 0000-03-01) and local
time-of-day in seconds. -/
structure JSDate where
  day : Nat
  tod : Nat
  deriving DecidableEq, Repr

/-- `new Date(year, monthIndex, day, hours, minutes, seconds)` per
ECMAScript: a year in `[0, 99]` is mapped to `1900 + year`, out-of-range
fields roll over into the neighbouring months/days, and the result is
invalid (`isNaN(+d)`) exactly when `TimeClip` rejects it.  Callers in this
file only produce `mIdx ≥ -1` (month fields are `≥ 0` and the source
subtracts one). -/
def mkDate (y : Nat) (mIdx : Int) (d h mi s : Nat) : Option JSDate :=
  let yFull := if y ≤ 99 then y + 1900 else y
  let ym : Nat := if mIdx < 0 then yFull - 1 else yFull + mIdx.toNat / 12
  let mn : Nat := if mIdx < 0 then (mIdx + 12).toNat else mIdx.toNat % 12
  let total := (daysFromCivil ym (mn + 1) 1 + d) * 86400 + (h * 3600 + mi * 60 + s) - 86400
  let day := total / 86400
  let tod := total % 86400
  let unixMs : Int := ((day : Int) - 719468) * 86400000 + (tod : Int) * 1000
  if unixMs.natAbs ≤ 8640000000000000 then some ⟨day, tod⟩ else none

/-- `Date.prototype.getFullYear`. -/
def JSDate.getFullYear (dt : JSDate) : Nat := (civilFromDays dt.day).1

/-- `Date.prototype.getMonth` (0-based). -/
def JSDate.getMonth (dt : JSDate) : Nat := (civilFromDays dt.day).2.1 - 1

/-- `Date.prototype.getDate`. -/
def JSDate.getDate (dt : JSDate) : Nat := (civilFromDays dt.day).2.2

/-- `Date.prototype.getHours`. -/
def JSDate.getHours (dt : JSDate) : Nat := dt.tod / 3600

/-- `Date.prototype.getMinutes`. -/
def JSDate.getMinutes (dt : JSDate) : Nat := dt.tod % 3600 / 60

/-- Calendar triple `(year, month, day)` read off an instant through the
getters the formatter uses. -/
def calTriple (dt : JSDate) : Nat × Nat × Nat :=
  (dt.getFullYear, dt.getMonth + 1, dt.getDate)

/-! ## `parseDateFlexible` (TableCore.tsx lines 34-110)

The three regex shapes are implemented by maximal-munch digit scanning;
for these regexes (fixed-width or width-1-2 digit groups, each followed by
a non-digit or end) maximal munch coincides with the regex semantics. -/

/-- The optional `(?:\s+(\d{1,2}):(\d{2}))?$` tail of the dot and slash
forms. -/
def timeTail (r : Str) : Option (Nat × Nat) :=
  match r with
  | [] => some (0, 0)
  | _ =>
    let ws := r.span isWSC
    if ws.1 = [] then none
    else
      let hs := ws.2.span isDigitC
      if 1 ≤ hs.1.length ∧ hs.1.length ≤ 2 then
        match hs.2 with
        | c :: r3 =>
          if c = ':' then
            let mis := r3.span isDigitC
            if mis.1.length = 2 ∧ mis.2 = [] then
              some (digitsToNat hs.1, digitsToNat mis.1)
            else none
          else none
        | [] => none
      else none

/-- The ISO shape `^(\d{4})-(\d{2})-(\d{2})(?:[T\s](\d{2}):(\d{2})(?::(\d{2}))?)?$`,
returning `(yyyy, mm, dd, hh, mi, ss)`. -/
def parseISOShape (t : Str) : Option (Nat × Nat × Nat × Nat × Nat × Nat) :=
  let ys := t.span isDigitC
  if ys.1.length = 4 then
    match ys.2 with
    | c1 :: r2 =>
      if c1 = '-' then
        let ms := r2.span isDigitC
        if ms.1.length = 2 then
          match ms.2 with
          | c2 :: r4 =>
            if c2 = '-' then
              let ds := r4.span isDigitC
              if ds.1.length = 2 then
                match ds.2 with
                | [] => some (digitsToNat ys.1, digitsToNat ms.1, digitsToNat ds.1, 0, 0, 0)
                | sep :: r6 =>
                  if sep = 'T' ∨ isWSC sep = true then
                    let hs := r6.span isDigitC
                    if hs.1.length = 2 then
                      match hs.2 with
                      | c3 :: r8 =>
                        if c3 = ':' then
                          let mis := r8.span isDigitC
                          if mis.1.length = 2 then
                            match mis.2 with
                            | [] =>
                              some (digitsToNat ys.1, digitsToNat ms.1, digitsToNat ds.1,
                                digitsToNat hs.1, digitsToNat mis.1, 0)
                            | c4 :: r10 =>
                              if c4 = ':' then
                                let ss := r10.span isDigitC
                                if ss.1.length = 2 ∧ ss.2 = [] then
                                  some (digitsToNat ys.1, digitsToNat ms.1, digitsToNat ds.1,
                                    digitsToNat hs.1, digitsToNat mis.1, digitsToNat ss.1)
                                else none
                              else none
                          else none
                        else none
                      | [] => none
                    else none
                  else none
              else none
            else none
          | [] => none
        else none
      else none
    | [] => none
  else none

/-- The dot/slash shape `^(\d{1,2})SEP(\d{1,2})SEP(\d{4})` with the optional
time tail, returning `(first, second, yyyy, hh, mi)`. -/
def parseTwoSep (sepc : Char) (t : Str) : Option (Nat × Nat × Nat × Nat × Nat) :=
  let as := t.span isDigitC
  if 1 ≤ as.1.length ∧ as.1.length ≤ 2 then
    match as.2 with
    | c1 :: r2 =>
      if c1 = sepc then
        let bs := r2.span isDigitC
        if 1 ≤ bs.1.length ∧ bs.1.length ≤ 2 then
          match bs.2 with
          | c2 :: r4 =>
            if c2 = sepc then
              let ys := r4.span isDigitC
              if ys.1.length = 4 then
                match timeTail ys.2 with
                | some (hh, mi) =>
                  some (digitsToNat as.1, digitsToNat bs.1, digitsToNat ys.1, hh, mi)
                | none => none
              else none
            else none
          | [] => none
        else none
      else none
    | [] => none
  else none

/-- `(patternHint ?? "")` is falsy exactly when the hint is absent or empty. -/
def jsFalsyStr : Option Str → Bool
  | none => true
  | some s => s.isEmpty

/-- Day/month resolution for the slash form (TableCore.tsx lines 81-103):
a component `> 12` must be the day; otherwise a hint starting with `dd`
(or a missing/empty hint) means day-first, else month-first.  Returns
`(dd, mm)`. -/
def slashDayMonth (a b : Nat) (patternHint : Option Str) : Nat × Nat :=
  if 12 < a ∧ b ≤ 12 then (a, b)
  else if 12 < b ∧ a ≤ 12 then (b, a)
  else
    let prefersDMY := ['d', 'd'].isPrefixOf ((patternHint.getD []).map Char.toLower)
    if prefersDMY ∨ jsFalsyStr patternHint = true then (a, b) else (b, a)

/-- `parseDateFlexible(input, patternHint)` (TableCore.tsx lines 34-110). -/
def parseDateFlexible (input : Str) (patternHint : Option Str) : Option JSDate :=
  if input = [] then none
  else
    let t := jsTrim input
    if t = [] then none
    else
      match parseISOShape t with
      | some (yyyy, mm, dd, hh, mi, ss) => mkDate yyyy ((mm : Int) - 1) dd hh mi ss
      | none =>
        match parseTwoSep '.' t with
        | some (dd, mm, yyyy, hh, mi) => mkDate yyyy ((mm : Int) - 1) dd hh mi 0
        | none =>
          match parseTwoSep '/' t with
          | some (a, b, yyyy, hh, mi) =>
            let dm := slashDayMonth a b patternHint
            mkDate yyyy ((dm.2 : Int) - 1) dm.1 hh mi 0
          | none => none

/-! ## Formatting (TableCore.tsx lines 112-130) -/

/-- `String.prototype.replace` with a string pattern: replaces the first
occurrence only. -/
def replaceFirst (s pat rep : Str) : Str :=
  match s with
  | [] => []
  | c :: rest =>
    if pat.isPrefixOf (c :: rest) then rep ++ (c :: rest).drop pat.length
    else c :: replaceFirst rest pat rep

/-- The `"yyyy"` pattern token. -/
def patY : Str := ['y', 'y', 'y', 'y']

/-- The `"mm"` pattern token. -/
def patM : Str := ['m', 'm']

/-- The `"dd"` pattern token. -/
def patD : Str := ['d', 'd']

/-- `formatDateByPattern(date, pattern)` (TableCore.tsx lines 112-122). -/
def formatDateByPattern (date : Option JSDate) (pattern : Str) : Str :=
  match date with
  | none => []
  | some d =>
    replaceFirst
      (replaceFirst (replaceFirst pattern patY (natStr d.getFullYear))
        patM (padStart2 (natStr (d.getMonth + 1))))
      patD (padStart2 (natStr d.getDate))

/-- `formatDatetimeByPattern(date, pattern)` (TableCore.tsx lines 124-130). -/
def formatDatetimeByPattern (date : Option JSDate) (pattern : Str) : Str :=
  match date with
  | none => []
  | some d =>
    formatDateByPattern (some d) pattern ++
      ' ' :: (padStart2 (natStr d.getHours) ++ ':' :: padStart2 (natStr d.getMinutes))

/-! ## The data model (`TableTypes.ts`) -/

/-- Column semantic type. -/
inductive ColType where
  | text
  | number
  | date
  | datetime
  deriving DecidableEq, Repr

/-- A JavaScript number: either NaN or a (rational) value.  `Number(...)`
never produces infinities on the inputs this code feeds it. -/
inductive JSNum where
  | nan
  | val (q : Rat)
  deriving DecidableEq, Repr

/-- `CellValue = string | number | null | undefined`; absence (`undefined`)
is modelled by `Option` at use sites. -/
inductive CellValue where
  | str (s : Str)
  | num (x : JSNum)
  | null
  deriving DecidableEq, Repr

/-- `Number(raw)` on user text, modelling ECMAScript `ToNumber` restricted
to optionally-signed decimal literals (whitespace-trimmed; empty text maps
to 0; hex/exponent/`Infinity` forms, which no property proved here
exercises, map to NaN). -/
def jsNumber (s : Str) : JSNum :=
  let t := jsTrim s
  if t = [] then .val 0
  else
    let sgn : Int × Str :=
      match t with
      | '-' :: r => (-1, r)
      | '+' :: r => (1, r)
      | _ => (1, t)
    let ip := sgn.2.span isDigitC
    match ip.2 with
    | [] => if ip.1 = [] then .nan else .val (sgn.1 * (digitsToNat ip.1 : Int))
    | '.' :: fr =>
      let fp := fr.span isDigitC
      if fp.2 = [] ∧ (ip.1 ≠ [] ∨ fp.1 ≠ []) then
        .val ((sgn.1 : Rat) *
          ((digitsToNat ip.1 : Rat) + (digitsToNat fp.1 : Rat) / (10 : Rat) ^ fp.1.length))
      else .nan
    | _ => .nan

/-- `ColumnDef` (presentation-only fields that the core logic never reads,
such as `dateRole`, are omitted). -/
structure ColumnDef where
  key : Str
  title : Str := []
  type : Option ColType := none
  width : Option Nat := none
  isTitle : Option Bool := none
  deriving DecidableEq, Repr

/-- `RowData`: stable id, indent level, and the cell record (a JavaScript
object, modelled as an association list in insertion order). -/
structure RowData where
  id : Str
  indent : Int
  cells : List (Str × CellValue)
  deriving DecidableEq, Repr

/-- Default row object (used only as the `getD` fallback). -/
def dRow : RowData := ⟨[], 0, []⟩

/-- Default column object (used only as the `getD` fallback). -/
def dCol : ColumnDef := ⟨[], [], none, none, none⟩

/-- Lookup in a cell record (`row.cells[key]`, `undefined` when absent). -/
def recGet (cells : List (Str × CellValue)) (k : Str) : Option CellValue :=
  (cells.find? (fun e => e.1 == k)).map (fun e => e.2)

/-- Update-or-append in a cell record (`{...cells, [key]: v}` and the
in-place `cells[key] = v`, both of which keep the key's insertion position
or append a new key). -/
def recSet (cells : List (Str × CellValue)) (k : Str) (v : CellValue) :
    List (Str × CellValue) :=
  if (cells.find? (fun e => e.1 == k)).isSome then
    cells.map (fun e => if e.1 == k then (k, v) else e)
  else cells ++ [(k, v)]

/-- `Selection`: data row indices and positional column indices, `-1`
sentinel for the empty selection. -/
structure Selection where
  r1 : Int
  r2 : Int
  c1 : Int
  c2 : Int
  deriving DecidableEq, Repr

/-- `NOSEL` (TableCore.tsx line 162). -/
def NOSEL : Selection := ⟨-1, -1, -1, -1⟩

/-- `hasSel` (TableCore.tsx lines 163-164). -/
def hasSel (s : Selection) : Bool :=
  decide (0 ≤ s.r1) && decide (0 ≤ s.c1) && decide (0 ≤ s.r2) && decide (0 ≤ s.c2)

/-- `clamp(n, a, b) = Math.max(a, Math.min(b, n))` (TableCore.tsx 144-146). -/
def clamp (n a b : Int) : Int := max a (min b n)

/-- `isNumericColumn` (TableCore.tsx 147-149). -/
def isNumericColumn (col : ColumnDef) : Bool := col.type == some .number

/-- `isDateColumn` (TableCore.tsx 150-152). -/
def isDateColumn (col : ColumnDef) : Bool :=
  col.type == some .date || col.type == some .datetime

/-- Editing-session mode. -/
inductive EditMode where
  | replace
  | caretEnd
  | selectAll
  deriving DecidableEq, Repr

/-- The non-null part of `EditingState`. -/
structure EditingPos where
  r : Nat
  c : Nat
  mode : EditMode
  seed : Option Str := none
  deriving DecidableEq, Repr

/-- `TableCoreCellCommit`: the structured cell-commit notification. -/
structure TableCoreCellCommit where
  row : Nat
  col : Nat
  columnKey : Str
  prev : Option CellValue
  next : CellValue
  deriving DecidableEq, Repr

/-! ## Hierarchy and visibility (TableCore.tsx 178-195, 453-472) -/

/-- Stack entry of the visibility walk. -/
structure StackEntry where
  id : Str
  indent : Int
  collapsed : Bool
  deriving DecidableEq, Repr

/-- The `computeHasChildren` loop: for each row, pop the stack while the
top's indent is `≥` the row's indent; the remaining top (if any) is the
row's parent and is recorded.  Emits parent indices (possibly repeatedly;
only membership matters, matching the `Map` key set of the source). -/
def hasChildrenAux : List RowData → Nat → List (Nat × Int) → List Nat
  | [], _, _ => []
  | r :: rest, i, st =>
    let st1 := st.dropWhile (fun e => r.indent ≤ e.2)
    let tail := hasChildrenAux rest (i + 1) ((i, r.indent) :: st1)
    match st1 with
    | [] => tail
    | p :: _ => p.1 :: tail

/-- `computeHasChildren(rows)` (TableCore.tsx 178-195), as the list of
parent indices. -/
def computeHasChildren (rows : List RowData) : List Nat := hasChildrenAux rows 0 []

/-- The stack left by the `computeHasChildren` loop after consuming a row
prefix. -/
def hcStackAfter : List RowData → Nat → List (Nat × Int) → List (Nat × Int)
  | [], _, st => st
  | r :: rest, i, st =>
    let st1 := st.dropWhile (fun e => r.indent ≤ e.2)
    hcStackAfter rest (i + 1) ((i, r.indent) :: st1)

/-- The `visibleRowIndices` walk (TableCore.tsx 453-472): pop the stack
while the top's indent is `≥` the row's indent, emit the row iff no
remaining ancestor is collapsed, then push the row (flagged collapsed only
if it is a parent and its id is in the collapse set). -/
def visAux (cset : List Str) (isPar : Nat → Bool) :
    List RowData → Nat → List StackEntry → List Nat
  | [], _, _ => []
  | r :: rest, i, st =>
    let st1 := st.dropWhile (fun e => r.indent ≤ e.indent)
    let hidden := st1.any (fun e => e.collapsed)
    let entry : StackEntry :=
      ⟨r.id, r.indent, if isPar i then cset.contains r.id else false⟩
    let tail := visAux cset isPar rest (i + 1) (entry :: st1)
    if hidden then tail else i :: tail

/-- The stack left by the visibility walk after consuming a row prefix. -/
def visStackAfter (cset : List Str) (isPar : Nat → Bool) :
    List RowData → Nat → List StackEntry → List StackEntry
  | [], _, st => st
  | r :: rest, i, st =>
    let st1 := st.dropWhile (fun e => r.indent ≤ e.indent)
    let entry : StackEntry :=
      ⟨r.id, r.indent, if isPar i then cset.contains r.id else false⟩
    visStackAfter cset isPar rest (i + 1) (entry :: st1)

/-- `visibleRowIndices` (TableCore.tsx 453-472). -/
def visibleRowIndices (rows : List RowData) (collapsed : List Str) : List Nat :=
  visAux collapsed (fun i => (computeHasChildren rows).contains i) rows 0 []

/-- The contiguous descendant run of row `p`: the following rows of
strictly greater indent, up to the next row of indent `≤` row `p`'s. -/
def descRun (rows : List RowData) (p : Nat) : List Nat :=
  let base := (rows.getD p dRow).indent
  List.range' (p + 1)
    (((rows.drop (p + 1)).takeWhile (fun r => decide (base < r.indent))).length)

/-! ## Navigation (`nextPosAfter`, TableCore.tsx 474-517) -/

/-- Arrow/Tab/Enter movement direction. -/
inductive NavDir where
  | up
  | down
  | left
  | right
  deriving DecidableEq, Repr

/-- `nextPosAfter(r, c, dir)` (TableCore.tsx 474-517), abstracted over the
visible-row projection and the column count. -/
def nextPosAfter (visible : List Nat) (numCols : Nat) (r : Nat) (c : Int)
    (dir : NavDir) : Nat × Int :=
  let colMax : Int := (numCols : Int) - 1
  match visible.findIdx? (fun v => v == r) with
  | none =>
    let nearest : Option Nat :=
      match visible.find? (fun v => decide (r ≤ v)) with
      | some v => some v
      | none => visible.getLast?
    (nearest.getD r, c)
  | some vi =>
    match dir with
    | .down => (visible.getD (min (visible.length - 1) (vi + 1)) r, c)
    | .up => (visible.getD (vi - 1) r, c)
    | .right =>
      let cc := c + 1
      if colMax < cc then
        (visible.getD (min (visible.length - 1) (vi + 1)) r, 0)
      else (r, cc)
    | .left =>
      let cc := c - 1
      if cc < 0 then (visible.getD (vi - 1) r, colMax)
      else (r, cc)

/-! ## The heap model of the row collection

The host hands the core an array of row objects.  To make the source's
distinction between "construct a fresh row object" (`{...row, ...}`) and
"write into the existing row object" (`next[visRow].cells[k] = v`)
observable, rows live in an explicit heap (a list of row objects addressed
by position) and a collection is a list of addresses.  `data.map(...)`
with a fresh object at one index allocates at the end of the heap;
`data.slice()` copies the address list; an in-place write updates the heap
at an existing address. -/

/-- The heap of row objects. -/
abbrev Heap := List RowData

/-- A row collection: addresses into the heap. -/
abbrev Coll := List Nat

/-- Dereference an address (addresses are valid under `collWF`). -/
def heapRow (h : Heap) (a : Nat) : RowData := h.getD a dRow

/-- The row values a holder of the collection observes. -/
def materialize (h : Heap) (coll : Coll) : List RowData := coll.map (heapRow h)

/-- Well-formedness: every address is live and no two collection slots
alias the same row object. -/
def collWF (h : Heap) (coll : Coll) : Prop :=
  (∀ a ∈ coll, a < h.length) ∧ coll.Nodup

/-- The component-local state of `TableCore` that the modelled operations
read and write. -/
structure CoreState where
  heap : Heap
  data : Coll
  cols : List ColumnDef
  sel : Selection
  collapsed : List Str
  editing : Option EditingPos
  editValue : Str
  editSessionId : Nat
  lastCommittedSession : Option Nat
  deriving Repr

/-- Value coercion on commit/paste (shared by `commitCellValue` and
`onPaste`, which inline identical logic): numeric columns map empty text
to the empty string and other text through `Number(...)`; date columns
re-format a parse success and keep the raw text on parse failure; all
other columns store the raw text. -/
def coerceValueForColumn (col : ColumnDef) (raw : Str) (dateFormat : Str) : CellValue :=
  if isNumericColumn col then
    if raw = [] then .str [] else .num (jsNumber raw)
  else if isDateColumn col then
    match parseDateFlexible raw (some dateFormat) with
    | some d =>
      if col.type == some .datetime then .str (formatDatetimeByPattern (some d) dateFormat)
      else .str (formatDateByPattern (some d) dateFormat)
    | none => .str raw
  else .str raw

/-- The guarded cell read `dataRef.current[r]?.cells?.[key]`. -/
def readCellOpt (st : CoreState) (r : Nat) (k : Str) : Option CellValue :=
  ((st.data.get? r).bind (fun a => st.heap.get? a)).bind (fun row => recGet row.cells k)

/-- `commitCellValue(r, c, raw, opts)` (TableCore.tsx 386-420): coerce the
raw text by column type, build a new collection with a fresh row object at
index `r` (other slots keep their row objects), propagate the whole new
collection to the host, and emit one cell-commit notification carrying the
previous and new values — unconditionally. -/
def commitCellValue (st : CoreState) (dateFormat : Str) (r c : Nat) (raw : Str)
    (endEdit : Bool) : CoreState × List (List RowData) × List TableCoreCellCommit :=
  let col := st.cols.getD c dCol
  let prev : Option CellValue := readCellOpt st r col.key
  let parsed := coerceValueForColumn col raw dateFormat
  let hd : Heap × Coll :=
    if r < st.data.length then
      let oldRow := heapRow st.heap (st.data.getD r 0)
      (st.heap ++ [{ oldRow with cells := recSet oldRow.cells col.key parsed }],
        st.data.set r st.heap.length)
    else (st.heap, st.data)
  let st2 : CoreState :=
    { st with
      heap := hd.1
      data := hd.2
      editing := if endEdit then none else st.editing }
  (st2, [materialize hd.1 hd.2], [⟨r, c, col.key, prev, parsed⟩])

/-- `commitEdit(r, c, val)` (TableCore.tsx 422-431): the session guard —
if the current session already committed, do nothing; otherwise record the
session as committed and run `commitCellValue` with `endEdit`. -/
def commitEdit (st : CoreState) (dateFormat : Str) (r c : Nat) (v : Str) :
    CoreState × List (List RowData) × List TableCoreCellCommit :=
  if st.lastCommittedSession == some st.editSessionId then (st, [], [])
  else
    commitCellValue { st with lastCommittedSession := some st.editSessionId }
      dateFormat r c v true

/-- Decimal rendering of a JavaScript number; only the values this model
ever renders (integers and NaN) are exercised by the state machine. -/
def jsNumStr (x : JSNum) : Str :=
  match x with
  | .nan => ['N', 'a', 'N']
  | .val q =>
    if q.den = 1 then
      if q.num < 0 then '-' :: natStr q.num.natAbs else natStr q.num.natAbs
    else natStr q.num.natAbs ++ '/' :: natStr q.den

/-- `String(storedVal ?? "")` on a cell value. -/
def cellDisplayString (v : CellValue) : Str :=
  match v with
  | .str s => s
  | .num x => jsNumStr x
  | .null => ['n', 'u', 'l', 'l']

/-- `startEditing(next)` (TableCore.tsx 433-449): bump the monotonic
session id, reset the commit guard, and seed the editor value from the
seed character (`replace` mode) or the stored cell value. -/
def startEditing (st : CoreState) (next : EditingPos) : CoreState :=
  let st1 :=
    { st with editSessionId := st.editSessionId + 1, lastCommittedSession := none }
  let col := st1.cols.getD next.c dCol
  let storedVal : CellValue := (readCellOpt st1 next.r col.key).getD (.str [])
  let initial :=
    match next.mode with
    | .replace => next.seed.getD []
    | _ => cellDisplayString storedVal
  { st1 with editValue := initial, editing := some next }

/-- `indentRow(rowIdx, delta)` (TableCore.tsx 519-531): clamp the target
row's new indent to `[0, previous row's indent + 1]` (virtual indent 0
before row 0); if the clamped value differs, rebuild the collection with a
fresh row object at `rowIdx` and propagate it. -/
def indentRowOp (st : CoreState) (rowIdx : Nat) (delta : Int) :
    CoreState × List (List RowData) :=
  match (materialize st.heap st.data).get? rowIdx with
  | none => (st, [])
  | some cur =>
    let prevIndent : Int :=
      if 0 < rowIdx then (heapRow st.heap (st.data.getD (rowIdx - 1) 0)).indent else 0
    let maxIndent := prevIndent + 1
    let desired := cur.indent + delta
    let nextIndent := clamp desired 0 maxIndent
    if nextIndent = cur.indent then (st, [])
    else
      let heap2 := st.heap ++ [{ cur with indent := nextIndent }]
      let data2 := st.data.set rowIdx st.heap.length
      ({ st with heap := heap2, data := data2 }, [materialize heap2 data2])

/-! ## Clipboard paste (TableCore.tsx 721-765) -/

/-- Split a character list on a separator character, preserving empty
segments (JavaScript `String.prototype.split`). -/
def splitOnChar (sep : Char) : Str → List Str
  | [] => [[]]
  | c :: rest =>
    if c == sep then [] :: splitOnChar sep rest
    else
      match splitOnChar sep rest with
      | g :: gs => (c :: g) :: gs
      | [] => [[c]]

/-- Modelled from the spec: the clipboard deserializer `parseClipboard`
lives in `src/core/utils/clipboard`, which is not part of the repository
snapshot.  Per spec section 4.3 it splits the pasted text on newline and
then on tab, "preserving empty trailing cells". -/
def parseClipboard (txt : Str) : List (List Str) :=
  (splitOnChar '\n' txt).map (splitOnChar '\t')

/-- `isAggregatedCell` (TableCore.tsx 679): constantly false. -/
def isAggregatedCell (_rowIndex : Nat) (_col : ColumnDef) : Bool := false

/-- One in-place cell write of the paste loop
(`next[visRow].cells[col.key] = v`): updates the row object at an existing
heap address. -/
def pasteCellWrite (heap : Heap) (addr : Nat) (k : Str) (v : CellValue) : Heap :=
  match heap.get? addr with
  | none => heap
  | some row => heap.set addr { row with cells := recSet row.cells k v }

/-- The inner paste loop over one clipboard row's cells (`j` loop,
TableCore.tsx 738-761): stop at the last defined column, skip aggregated
cells, coerce and write in place. -/
def pasteRowCells (cols : List ColumnDef) (visRow addr c1 : Nat) (df : Str) :
    List Str → Nat → Heap → Heap
  | [], _, heap => heap
  | raw :: rest, j, heap =>
    let cc := c1 + j
    if cc < cols.length then
      let col := cols.getD cc dCol
      let heap2 :=
        if isAggregatedCell visRow col then heap
        else pasteCellWrite heap addr col.key (coerceValueForColumn col raw df)
      pasteRowCells cols visRow addr c1 df rest (j + 1) heap2
    else heap

/-- The outer paste loop over clipboard rows (`i` loop, TableCore.tsx
734-762): each clipboard row targets the next visible row; stop past the
last visible row. -/
def pasteRows (cols : List ColumnDef) (visible : List Nat) (coll : Coll)
    (c1 : Nat) (df : Str) : List (List Str) → Nat → Heap → Heap
  | [], _, heap => heap
  | mrow :: rest, k, heap =>
    match visible.get? k with
    | none => heap
    | some visRow =>
      let addr := coll.getD visRow 0
      let heap2 := pasteRowCells cols visRow addr c1 df mrow 0 heap
      pasteRows cols visible coll c1 df rest (k + 1) heap2

/-- `onPaste` (TableCore.tsx 721-765): no-op without a selection or for an
empty payload; otherwise copy the address array (`data.slice()`), locate
the selection's row-start in the visible projection (bail out when
hidden), write the clipboard block in place into consecutive visible rows,
and propagate the copied collection. -/
def onPaste (st : CoreState) (dateFormat : Str) (txt : Str) :
    CoreState × List (List RowData) :=
  if !(hasSel st.sel) then (st, [])
  else if txt = [] then (st, [])
  else
    let m := parseClipboard txt
    let nextColl : Coll := st.data
    let visible := visibleRowIndices (materialize st.heap st.data) st.collapsed
    match visible.findIdx? (fun v => Int.ofNat v == st.sel.r1) with
    | none => (st, [])
    | some startIdx =>
      let heap2 :=
        pasteRows st.cols visible st.data st.sel.c1.toNat dateFormat m startIdx st.heap
      ({ st with heap := heap2, data := nextColl }, [materialize heap2 nextColl])

/-! ## Pointer-drag selection and column reorder -/

/-- The rectangle update of `onMouseMove` once dragging (TableCore.tsx
645-650): span from the press origin to the cell under the pointer. -/
def dragExtendSel (r0 c0 r c : Nat) : Selection :=
  ⟨(min r r0 : Nat), (max r r0 : Nat), (min c c0 : Nat), (max c c0 : Nat)⟩

/-- Array `splice` move of the column-reorder drop handler (TableCore.tsx
869-872): remove the column at `from`, reinsert it at `idx`. -/
def spliceMove (cols : List ColumnDef) (fromIdx idx : Nat) : List ColumnDef :=
  match cols.get? fromIdx with
  | none => cols
  | some moved => (cols.eraseIdx fromIdx).insertIdx idx moved

/-- `mapIndex(old)` of the drop handler (TableCore.tsx 877-882): find the
old column's key in the new order (`findIndex`, `-1` when absent). -/
def mapIndexAfterMove (cols : List ColumnDef) (fromIdx idx old : Nat) : Int :=
  let arr := spliceMove cols fromIdx idx
  match arr.findIdx? (fun c => c.key == (cols.getD old dCol).key) with
  | some i => (i : Int)
  | none => -1

/-- The selection remap of the drop handler (TableCore.tsx 874-885). -/
def remapSelAfterMove (cols : List ColumnDef) (fromIdx idx : Nat) (s : Selection) :
    Selection :=
  if !(hasSel s) then s
  else
    ⟨s.r1, s.r2, mapIndexAfterMove cols fromIdx idx s.c1.toNat,
      mapIndexAfterMove cols fromIdx idx s.c2.toNat⟩

/-- Iterated `commitEdit` calls (a blur/Enter/blur... sequence within one
editing session), collecting every propagated collection and every
notification. -/
def commitEditMany (df : Str) :
    CoreState → List (Nat × Nat × Str) → CoreState × List (List RowData) × List TableCoreCellCommit
  | st, [] => (st, [], [])
  | st, (r, c, v) :: rest =>
    let one := commitEdit st df r c v
    let more := commitEditMany df one.1 rest
    (more.1, one.2.1 ++ more.2.1, one.2.2 ++ more.2.2)

/-! ## Definitions used to state the claims -/

/-- An all-digit string. -/
def DigitStr (s : Str) : Prop := ∀ c ∈ s, isDigitC c = true

/-- The spec's selection invariant: ordered edges, all four indices within
the current bounds. -/
def selInvariant (s : Selection) (numRows numCols : Nat) : Prop :=
  s.r1 ≤ s.r2 ∧ s.c1 ≤ s.c2 ∧ 0 ≤ s.r1 ∧ 0 ≤ s.c1 ∧
    s.r2 < (numRows : Int) ∧ s.c2 < (numCols : Int)

/-- The spec's indent invariant: every indent is `≥ 0` and at most one
more than the previous row's (virtually 0 before row 0). -/
def indentInvariant (rows : List RowData) : Prop :=
  ∀ i, i < rows.length →
    0 ≤ (rows.getD i dRow).indent ∧
      (rows.getD i dRow).indent ≤
        (if i = 0 then 0 else (rows.getD (i - 1) dRow).indent) + 1

/-- The date-string shapes of the spec's round-trip property, together
with the pattern string used both as parse hint and as format pattern. -/
inductive DateForm where
  | iso
  | dot
  | slashDMY
  | slashMDY
  deriving DecidableEq, Repr

/-- The pattern belonging to each form. -/
def formPattern : DateForm → Str
  | .iso => ['y', 'y', 'y', 'y', '-', 'm', 'm', '-', 'd', 'd']
  | .dot => ['d', 'd', '.', 'm', 'm', '.', 'y', 'y', 'y', 'y']
  | .slashDMY => ['d', 'd', '/', 'm', 'm', '/', 'y', 'y', 'y', 'y']
  | .slashMDY => ['m', 'm', '/', 'd', 'd', '/', 'y', 'y', 'y', 'y']

/-- An input string of the given form built from digit-string components
(`sy`/`sm`/`sd` rendering the year/month/day). -/
def formRender (f : DateForm) (sy sm sd : Str) : Str :=
  match f with
  | .iso => sy ++ '-' :: sm ++ '-' :: sd
  | .dot => sd ++ '.' :: sm ++ '.' :: sy
  | .slashDMY => sd ++ '/' :: sm ++ '/' :: sy
  | .slashMDY => sm ++ '/' :: sd ++ '/' :: sy

/-- The canonical string the formatter produces for a calendar date under
each form's pattern (two-digit-padded day and month, unpadded year). -/
def formCanonical (f : DateForm) (y m d : Nat) : Str :=
  match f with
  | .iso => natStr y ++ '-' :: padStart2 (natStr m) ++ '-' :: padStart2 (natStr d)
  | .dot => padStart2 (natStr d) ++ '.' :: padStart2 (natStr m) ++ '.' :: natStr y
  | .slashDMY => padStart2 (natStr d) ++ '/' :: padStart2 (natStr m) ++ '/' :: natStr y
  | .slashMDY => padStart2 (natStr m) ++ '/' :: padStart2 (natStr d) ++ '/' :: natStr y

/-- Permitted length of a month/day component string: exactly two digits
in the ISO form, one or two digits in the dot and slash forms. -/
def compLenOK (f : DateForm) (n : Nat) : Prop :=
  match f with
  | .iso => n = 2
  | _ => 1 ≤ n ∧ n ≤ 2

/-- Concrete three-row state with indents 0, 1, 2 (a grandparent chain). -/
def sampleIndentState : CoreState :=
  { heap := [⟨['x'], 0, []⟩, ⟨['y'], 1, []⟩, ⟨['z'], 2, []⟩]
    data := [0, 1, 2]
    cols := [{ key := ['a'] }]
    sel := NOSEL
    collapsed := []
    editing := none
    editValue := []
    editSessionId := 0
    lastCommittedSession := none }

/-- Concrete one-row state whose single cell `a` holds `"o"`, with that
cell selected. -/
def samplePasteState : CoreState :=
  { heap := [⟨['x'], 0, [(['a'], .str ['o'])]⟩]
    data := [0]
    cols := [{ key := ['a'] }]
    sel := ⟨0, 0, 0, 0⟩
    collapsed := []
    editing := none
    editValue := []
    editSessionId := 0
    lastCommittedSession := none }

/-- The visible-row window a paste of `n` clipboard rows targets:
`n` consecutive entries of the visible projection starting at the visible
position of the selection's row-start. -/
def pasteTargets (visible : List Nat) (startIdx n : Nat) : List Nat :=
  (visible.drop startIdx).take n

/-!
# Theorems

First the general-purpose lemmas, then one main theorem per claim
(with witness and counterexample theorems where required).
-/

/-- **C1** — The spec requires that a string matching one of the three
accepted shapes but not denoting an existing calendar date parse to
`null` ("the underlying instant validity check must be exercised").  The
code instead inherits the ECMAScript `Date` constructor's field rollover:
`"31.02.2026"` parses to 3 March 2026 and a day of 32 rolls into the next
month, and the `isNaN(+d)` check in `parseDateFlexible` can never fire for
a shape-matched input (its four-digit year keeps the instant inside
`TimeClip` range).  This theorem evaluates the code at the failing
inputs. -/
theorem claim_C1 :
    parseDateFlexible "31.02.2026".toList (some "dd.mm.yyyy".toList) ≠ none ∧
    (parseDateFlexible "31.02.2026".toList (some "dd.mm.yyyy".toList)).map calTriple
      = some (2026, 3, 3) ∧
    (parseDateFlexible "32.01.2026".toList (some "dd.mm.yyyy".toList)).map calTriple
      = some (2026, 2, 1) ∧
    (parseDateFlexible "2026-02-31".toList none).map calTriple
      = some (2026, 3, 3) := by
  decide

/-- **C2** — Slash-form day/month resolution: a component `> 12` (with the
other `≤ 12`) is the day; otherwise a hint beginning with the day token
(or an absent/empty hint) selects day-first, else month-first; the default
with no hint is day-first.  The final conjuncts check the spec's concrete
examples through the full parser. -/
theorem claim_C2 (a b : Nat) (hint : Option Str) :
    (12 < a → b ≤ 12 → slashDayMonth a b hint = (a, b)) ∧
    (12 < b → a ≤ 12 → slashDayMonth a b hint = (b, a)) ∧
    (¬(12 < a ∧ b ≤ 12) → ¬(12 < b ∧ a ≤ 12) →
      ((['d', 'd'].isPrefixOf ((hint.getD []).map Char.toLower) = true →
          slashDayMonth a b hint = (a, b)) ∧
        (hint = none → slashDayMonth a b hint = (a, b)) ∧
        (∀ s, hint = some s → s ≠ [] →
          ['d', 'd'].isPrefixOf (s.map Char.toLower) = false →
          slashDayMonth a b hint = (b, a)))) ∧
    (parseDateFlexible "13/02/2026".toList (some "mm/dd/yyyy".toList)).map calTriple
      = some (2026, 2, 13) ∧
    (parseDateFlexible "13/02/2026".toList (some "dd/mm/yyyy".toList)).map calTriple
      = some (2026, 2, 13) ∧
    (parseDateFlexible "13/02/2026".toList none).map calTriple = some (2026, 2, 13) ∧
    (parseDateFlexible "02/03/2026".toList (some "mm/dd/yyyy".toList)).map calTriple
      = some (2026, 2, 3) ∧
    (parseDateFlexible "02/03/2026".toList (some "dd/mm/yyyy".toList)).map calTriple
      = some (2026, 3, 2) ∧
    (parseDateFlexible "02/03/2026".toList none).map calTriple = some (2026, 3, 2) := by
  refine ⟨?_, ?_, ?_, by decide, by decide, by decide, by decide, by decide, by decide⟩
  · intro ha hb
    simp only [slashDayMonth, if_pos (And.intro ha hb)]
  · intro hb ha
    have hna : ¬(12 < a ∧ b ≤ 12) := by omega
    simp only [slashDayMonth, if_neg hna, if_pos (And.intro hb ha)]
  · intro hna hnb
    refine ⟨?_, ?_, ?_⟩
    · intro hdd
      simp only [slashDayMonth, if_neg hna, if_neg hnb]
      rw [if_pos (Or.inl hdd)]
    · rintro rfl
      simp [slashDayMonth, if_neg hna, if_neg hnb, jsFalsyStr]
    · rintro s rfl hne hdd
      simp only [slashDayMonth, if_neg hna, if_neg hnb, Option.getD_some]
      rw [if_neg]
      simp only [hdd, jsFalsyStr, false_or, false_and]
      simp [List.isEmpty_iff, hne]

/-- Witness for `claim_C2`: the hint-free both-small case resolves
day-first, instantiated at `02/03`. -/
theorem claim_C2_witness :
    slashDayMonth 2 3 none = (2, 3) :=
  ((claim_C2 2 3 none).2.2.1 (by decide) (by decide)).2.1 rfl

/-! ### Commit machinery lemmas (for C3) -/

/-- `commitCellValue` does not touch the session bookkeeping. -/
theorem commitCellValue_session (st : CoreState) (df : Str) (r c : Nat) (raw : Str)
    (endEdit : Bool) :
    (commitCellValue st df r c raw endEdit).1.lastCommittedSession
        = st.lastCommittedSession ∧
      (commitCellValue st df r c raw endEdit).1.editSessionId = st.editSessionId := by
  simp [commitCellValue]

/-- A committed session ignores every further `commitEdit`. -/
theorem commitEditMany_committed (df : Str) (st : CoreState)
    (h : st.lastCommittedSession = some st.editSessionId)
    (calls : List (Nat × Nat × Str)) :
    commitEditMany df st calls = (st, [], []) := by
  induction calls with
  | nil => rfl
  | cons hd tl ih =>
    obtain ⟨r, c, v⟩ := hd
    simp [commitEditMany, commitEdit, h, ih]

/-- **C3** — Within one editing session (opened by `startEditing`), any
number `≥ 1` of `commitEdit` calls hands the host exactly one replacement
collection and emits exactly one cell-commit notification; the
notification carries the previous and the coerced new value
unconditionally (also when they are equal, since `commitCellValue`
compares nothing); and after the first call the session is marked
committed, so every further `commitEdit` returns the state unchanged with
no outputs. -/
theorem claim_C3 (st : CoreState) (e : EditingPos) (df v : Str) (r c : Nat)
    (calls : List (Nat × Nat × Str)) :
    (commitEditMany df (startEditing st e) ((r, c, v) :: calls)).2.1.length = 1 ∧
    (commitEditMany df (startEditing st e) ((r, c, v) :: calls)).2.2 =
      [⟨r, c, ((startEditing st e).cols.getD c dCol).key,
        readCellOpt (startEditing st e) r ((startEditing st e).cols.getD c dCol).key,
        coerceValueForColumn ((startEditing st e).cols.getD c dCol) v df⟩] ∧
    ∀ calls2,
      commitEditMany df (commitEditMany df (startEditing st e) ((r, c, v) :: calls)).1 calls2
        = ((commitEditMany df (startEditing st e) ((r, c, v) :: calls)).1, [], []) := by
  have hopen : (startEditing st e).lastCommittedSession = none := by
    simp [startEditing]
  have hfire :
      commitEdit (startEditing st e) df r c v =
        commitCellValue
          { startEditing st e with
            lastCommittedSession := some (startEditing st e).editSessionId }
          df r c v true := by
    simp [commitEdit, hopen]
  have hcommitted :
      (commitEdit (startEditing st e) df r c v).1.lastCommittedSession
        = some (commitEdit (startEditing st e) df r c v).1.editSessionId := by
    rw [hfire]
    rcases commitCellValue_session
        { startEditing st e with
          lastCommittedSession := some (startEditing st e).editSessionId }
        df r c v true with ⟨h1, h2⟩
    rw [h1, h2]
  have hrest :=
    commitEditMany_committed df (commitEdit (startEditing st e) df r c v).1 hcommitted calls
  have hsplit :
      commitEditMany df (startEditing st e) ((r, c, v) :: calls)
        = ((commitEdit (startEditing st e) df r c v).1,
            (commitEdit (startEditing st e) df r c v).2.1,
            (commitEdit (startEditing st e) df r c v).2.2) := by
    rw [commitEditMany, hrest]
    simp
  refine ⟨?_, ?_, ?_⟩
  · rw [hsplit, hfire]
    simp [commitCellValue]
  · rw [hsplit, hfire]
    simp [commitCellValue, readCellOpt, dCol]
  · intro calls2
    rw [hsplit]
    exact commitEditMany_committed df _ hcommitted calls2

/-! ### Heap lemmas -/

/-- Reading the materialized collection is dereferencing the address. -/
theorem materialize_getD (h : Heap) (coll : Coll) (i : Nat) (hi : i < coll.length) :
    (materialize h coll).getD i dRow = heapRow h (coll.getD i 0) := by
  simp [materialize, List.getD_eq_getElem?_getD, List.getElem?_map,
    List.getElem?_eq_getElem hi]

/-- A freshly allocated row does not shadow live addresses. -/
theorem heapRow_append (h : Heap) (x : RowData) (a : Nat) (ha : a < h.length) :
    heapRow (h ++ [x]) a = heapRow h a := by
  simp [heapRow, List.getD_eq_getElem?_getD, List.getElem?_append_left ha]

/-- Dereferencing the fresh address yields the fresh row. -/
theorem heapRow_append_self (h : Heap) (x : RowData) :
    heapRow (h ++ [x]) h.length = x := by
  simp [heapRow, List.getD_eq_getElem?_getD]

/-- In-range `getD` reads are members. -/
theorem getD_mem_of_lt {α : Type} (l : List α) (i : Nat) (d : α) (h : i < l.length) :
    l.getD i d ∈ l := by
  rw [List.getD_eq_getElem?_getD, List.getElem?_eq_getElem h]
  exact List.getElem_mem h

/-- **C5** (amended) — An indent-adjust operation: leaves every row other
than the target unchanged, and gives the target row an indent equal to the
request clamped into `[0, previous row's indent + 1]` (virtual indent 0
before row 0) — in particular out-of-range requests are clamped silently
and the target row satisfies the local indent bounds.  The claim's global
invariant over all rows is *not* restored: a decrease can invalidate the
constraint at the following row (see the counterexample). -/
theorem claim_C5 (st : CoreState) (rowIdx : Nat) (delta : Int)
    (hwf : ∀ a ∈ st.data, a < st.heap.length)
    (hprev : 0 ≤ (if rowIdx = 0 then 0
      else ((materialize st.heap st.data).getD (rowIdx - 1) dRow).indent)) :
    (materialize (indentRowOp st rowIdx delta).1.heap
        (indentRowOp st rowIdx delta).1.data).length
      = (materialize st.heap st.data).length ∧
    (∀ i, i < (materialize st.heap st.data).length → i ≠ rowIdx →
      (materialize (indentRowOp st rowIdx delta).1.heap
          (indentRowOp st rowIdx delta).1.data).getD i dRow
        = (materialize st.heap st.data).getD i dRow) ∧
    (rowIdx < (materialize st.heap st.data).length →
      ((materialize (indentRowOp st rowIdx delta).1.heap
            (indentRowOp st rowIdx delta).1.data).getD rowIdx dRow).indent
          = clamp (((materialize st.heap st.data).getD rowIdx dRow).indent + delta) 0
              ((if rowIdx = 0 then 0
                else ((materialize st.heap st.data).getD (rowIdx - 1) dRow).indent) + 1) ∧
        0 ≤ ((materialize (indentRowOp st rowIdx delta).1.heap
            (indentRowOp st rowIdx delta).1.data).getD rowIdx dRow).indent ∧
        ((materialize (indentRowOp st rowIdx delta).1.heap
            (indentRowOp st rowIdx delta).1.data).getD rowIdx dRow).indent
          ≤ (if rowIdx = 0 then 0
              else ((materialize st.heap st.data).getD (rowIdx - 1) dRow).indent) + 1 ∧
        ((materialize (indentRowOp st rowIdx delta).1.heap
            (indentRowOp st rowIdx delta).1.data).getD rowIdx dRow).id
          = ((materialize st.heap st.data).getD rowIdx dRow).id ∧
        ((materialize (indentRowOp st rowIdx delta).1.heap
            (indentRowOp st rowIdx delta).1.data).getD rowIdx dRow).cells
          = ((materialize st.heap st.data).getD rowIdx dRow).cells) := by
  have hlen : (materialize st.heap st.data).length = st.data.length := by
    simp [materialize]
  rcases hcur : (materialize st.heap st.data).get? rowIdx with _ | cur
  · -- target out of range: no-op, and the per-row part is vacuous
    have hge : st.data.length ≤ rowIdx := by
      have := List.get?_eq_none.mp hcur
      omega
    unfold indentRowOp
    rw [hcur]
    exact ⟨rfl, fun i _ _ => rfl, fun hx => absurd hx (by omega)⟩
  · have hlt : rowIdx < st.data.length := by
      by_contra hno
      rw [List.get?_eq_none.mpr (by omega)] at hcur
      exact Option.noConfusion hcur
    have hcurstmt : (materialize st.heap st.data).getD rowIdx dRow = cur := by
      rw [List.getD_eq_getElem?_getD, ← List.get?_eq_getElem?, hcur]
      rfl
    have hcurval : cur = heapRow st.heap (st.data.getD rowIdx 0) := by
      rw [← hcurstmt, materialize_getD _ _ _ hlt]
    have hprevdef :
        (if 0 < rowIdx then (heapRow st.heap (st.data.getD (rowIdx - 1) 0)).indent else 0)
          = (if rowIdx = 0 then 0
            else ((materialize st.heap st.data).getD (rowIdx - 1) dRow).indent) := by
      rcases Nat.eq_zero_or_pos rowIdx with h0 | h0
      · simp [h0]
      · rw [if_pos h0, if_neg (by omega), materialize_getD _ _ _ (by omega)]
    have hprev' : (0 : Int) ≤
        (if 0 < rowIdx then (heapRow st.heap (st.data.getD (rowIdx - 1) 0)).indent else 0) := by
      rw [hprevdef]
      exact hprev
    by_cases hsame :
        clamp (cur.indent + delta) 0
            ((if 0 < rowIdx then (heapRow st.heap (st.data.getD (rowIdx - 1) 0)).indent
              else 0) + 1)
          = cur.indent
    · -- clamped value equals the current indent: operation is the identity
      unfold indentRowOp
      rw [hcur]
      dsimp only
      rw [if_pos hsame]
      refine ⟨rfl, fun i _ _ => rfl, fun _ => ?_⟩
      rw [hcurstmt]
      refine ⟨?_, ?_, ?_, rfl, rfl⟩
      · rw [← hprevdef]
        exact hsame.symm
      · simp only [clamp] at hsame
        omega
      · rw [← hprevdef]
        simp only [clamp] at hsame hprev' ⊢
        omega
    · -- the indent changes: a fresh row object is written at `rowIdx`
      unfold indentRowOp
      rw [hcur]
      dsimp only
      rw [if_neg hsame]
      refine ⟨by simp [materialize], ?_, ?_⟩
      · intro i hi hne
        rw [hlen] at hi
        rw [materialize_getD _ _ _ (by simpa using hi), materialize_getD _ _ _ hi]
        have hset : (st.data.set rowIdx st.heap.length).getD i 0 = st.data.getD i 0 := by
          simp [List.getD_eq_getElem?_getD, List.getElem?_set_ne (by omega : rowIdx ≠ i)]
        rw [hset, heapRow_append]
        exact hwf _ (getD_mem_of_lt _ _ _ hi)
      · intro _
        rw [materialize_getD _ _ _ (by simpa using hlt)]
        have hset : (st.data.set rowIdx st.heap.length).getD rowIdx 0 = st.heap.length := by
          simp [List.getD_eq_getElem?_getD, List.getElem?_set_self, hlt]
        rw [hset, heapRow_append_self, hcurstmt]
        refine ⟨?_, ?_, ?_, rfl, rfl⟩
        · rw [← hprevdef]
        · simp only [clamp]
          omega
        · rw [← hprevdef]
          simp only [clamp] at hprev' ⊢
          omega

/-- Counterexample to **C5** as stated: on the collection with indents
`[0, 1, 2]` (which satisfies the invariant), Alt+Left on row 1 produces
indents `[0, 0, 2]`, and row 2 now violates
`row[i].indent ≤ row[i-1].indent + 1`. -/
theorem counterexample_C5 :
    indentInvariant (materialize sampleIndentState.heap sampleIndentState.data) ∧
    ¬ indentInvariant
        (materialize (indentRowOp sampleIndentState 1 (-1)).1.heap
          (indentRowOp sampleIndentState 1 (-1)).1.data) := by
  constructor
  · unfold indentInvariant
    decide
  · intro h
    have h2 := h 2 (by decide)
    revert h2
    decide

/-! ### Column reorder lemmas (for C4) -/

/-- Moving the element at a valid index to the front is a permutation. -/
theorem cons_eraseIdx_perm {α : Type} (l : List α) (i : Nat) (h : i < l.length) :
    List.Perm (l[i] :: l.eraseIdx i) l := by
  rw [List.eraseIdx_eq_take_drop_succ]
  refine List.Perm.trans List.perm_middle.symm ?_
  rw [List.getElem_cons_drop, List.take_append_drop]

/-- The splice move of the reorder handler permutes the columns. -/
theorem spliceMove_perm (cols : List ColumnDef) (f i : Nat) (hf : f < cols.length)
    (hi : i < cols.length) :
    List.Perm (spliceMove cols f i) cols := by
  have hmoved : cols.get? f = some cols[f] := by
    rw [List.get?_eq_getElem?, List.getElem?_eq_getElem hf]
  rw [spliceMove, hmoved]
  have hlen : i ≤ (cols.eraseIdx f).length := by
    rw [List.length_eraseIdx]
    simp only [hf, if_pos]
    omega
  exact (List.perm_insertIdx _ _ hlen).trans (cons_eraseIdx_perm cols f hf)

/-- The splice move preserves the column count. -/
theorem spliceMove_length (cols : List ColumnDef) (f i : Nat) (hf : f < cols.length)
    (hi : i < cols.length) :
    (spliceMove cols f i).length = cols.length :=
  (spliceMove_perm cols f i hf hi).length_eq

/-- `mapIndex` of the reorder handler: under distinct keys and in-range
indices it returns an in-range index whose column carries the old
column's key. -/
theorem mapIndexAfterMove_spec (cols : List ColumnDef) (f i old : Nat)
    (hf : f < cols.length) (hi : i < cols.length) (hold : old < cols.length) :
    0 ≤ mapIndexAfterMove cols f i old ∧
      mapIndexAfterMove cols f i old < (cols.length : Int) ∧
      ((spliceMove cols f i).getD (mapIndexAfterMove cols f i old).toNat dCol).key
        = (cols.getD old dCol).key := by
  have hmem : (cols.getD old dCol) ∈ spliceMove cols f i :=
    (spliceMove_perm cols f i hf hi).mem_iff.mpr (getD_mem_of_lt _ _ _ hold)
  rcases hfind : (spliceMove cols f i).findIdx?
      (fun c => c.key == (cols.getD old dCol).key) with _ | j
  · exfalso
    have := List.findIdx?_eq_none_iff.mp hfind _ hmem
    simp at this
  · rcases List.findIdx?_eq_some_iff_getElem.mp hfind with ⟨hjl, hkey, _⟩
    have hkeq : (spliceMove cols f i)[j].key = (cols.getD old dCol).key := by
      simpa using hkey
    have hjlen : j < cols.length := by
      rwa [spliceMove_length cols f i hf hi] at hjl
    rw [mapIndexAfterMove, hfind]
    dsimp only
    refine ⟨by omega, by exact_mod_cast hjlen, ?_⟩
    rw [Int.toNat_ofNat]
    rw [List.getD_eq_getElem?_getD, List.getElem?_eq_getElem hjl]
    simpa using hkeq

/-- **C4** (amended) — The ordering-and-bounds invariant is established by
the pointer-drag rectangle update (min/max on both axes of two in-bounds
cells).  The column-reorder remap keeps the row edges unchanged and maps
each selection column edge to an in-bounds position carrying the same
column key (stable identity through the key) — but it does *not* preserve
`c1 ≤ c2`: moving one edge's column across the other swaps the edges (see
the counterexample), so only the bounds-and-identity half of the claim
survives reorder. -/
theorem claim_C4 (r0 c0 r c numRows numCols : Nat)
    (cols : List ColumnDef) (fromIdx idx : Nat) (s : Selection)
    (hr0 : r0 < numRows) (hr : r < numRows) (hc0 : c0 < numCols) (hc : c < numCols)
    (hfrom : fromIdx < cols.length) (hidx : idx < cols.length)
    (hsel : hasSel s = true)
    (hc1 : s.c1.toNat < cols.length) (hc2 : s.c2.toNat < cols.length) :
    selInvariant (dragExtendSel r0 c0 r c) numRows numCols ∧
    ((remapSelAfterMove cols fromIdx idx s).r1 = s.r1 ∧
      (remapSelAfterMove cols fromIdx idx s).r2 = s.r2 ∧
      0 ≤ (remapSelAfterMove cols fromIdx idx s).c1 ∧
      (remapSelAfterMove cols fromIdx idx s).c1 < (cols.length : Int) ∧
      0 ≤ (remapSelAfterMove cols fromIdx idx s).c2 ∧
      (remapSelAfterMove cols fromIdx idx s).c2 < (cols.length : Int) ∧
      ((spliceMove cols fromIdx idx).getD
          (remapSelAfterMove cols fromIdx idx s).c1.toNat dCol).key
        = (cols.getD s.c1.toNat dCol).key ∧
      ((spliceMove cols fromIdx idx).getD
          (remapSelAfterMove cols fromIdx idx s).c2.toNat dCol).key
        = (cols.getD s.c2.toNat dCol).key) := by
  constructor
  · refine ⟨?_, ?_, ?_, ?_, ?_, ?_⟩ <;>
      simp only [dragExtendSel, selInvariant] <;> omega
  · have e1 := mapIndexAfterMove_spec cols fromIdx idx s.c1.toNat hfrom hidx hc1
    have e2 := mapIndexAfterMove_spec cols fromIdx idx s.c2.toNat hfrom hidx hc2
    have hs : remapSelAfterMove cols fromIdx idx s =
        ⟨s.r1, s.r2, mapIndexAfterMove cols fromIdx idx s.c1.toNat,
          mapIndexAfterMove cols fromIdx idx s.c2.toNat⟩ := by
      rw [remapSelAfterMove, hsel]
      rfl
    rw [hs]
    exact ⟨rfl, rfl, e1.1, e1.2.1, e2.1, e2.2.1, e1.2.2, e2.2.2⟩

/-- Counterexample to **C4** as stated: columns `a, b, c` with the
selection spanning columns 0-1 (`c1 = 0 ≤ c2 = 1`); dragging column 0 to
position 1 remaps the selection to `c1 = 1, c2 = 0`, violating
`c1 ≤ c2`. -/
theorem counterexample_C4 :
    remapSelAfterMove [⟨['a'], [], none, none, none⟩, ⟨['b'], [], none, none, none⟩,
        ⟨['c'], [], none, none, none⟩] 0 1 ⟨0, 0, 0, 1⟩
      = ⟨0, 0, 1, 0⟩ ∧
    ¬ ((remapSelAfterMove [⟨['a'], [], none, none, none⟩, ⟨['b'], [], none, none, none⟩,
          ⟨['c'], [], none, none, none⟩] 0 1 ⟨0, 0, 0, 1⟩).c1
        ≤ (remapSelAfterMove [⟨['a'], [], none, none, none⟩, ⟨['b'], [], none, none, none⟩,
          ⟨['c'], [], none, none, none⟩] 0 1 ⟨0, 0, 0, 1⟩).c2) := by
  decide

/-- Witness for `claim_C4` at concrete inputs: a drag over rows 0-1 and
columns 0-1 of a 2×2 grid yields an in-bounds ordered rectangle, and the
counterexample's reorder keeps both remapped edges in bounds. -/
theorem claim_C4_witness :
    selInvariant (dragExtendSel 0 0 1 1) 2 2 ∧
    0 ≤ (remapSelAfterMove [⟨['a'], [], none, none, none⟩, ⟨['b'], [], none, none, none⟩,
        ⟨['c'], [], none, none, none⟩] 0 1 ⟨0, 0, 0, 1⟩).c1 := by
  have h := claim_C4 0 0 1 1 2 2
    [⟨['a'], [], none, none, none⟩, ⟨['b'], [], none, none, none⟩,
      ⟨['c'], [], none, none, none⟩] 0 1 ⟨0, 0, 0, 1⟩
    (by decide) (by decide) (by decide) (by decide) (by decide) (by decide)
    (by decide) (by decide) (by decide)
  exact ⟨h.1, h.2.2.2.1⟩

/-! ### Cell-record lemmas (for C8) -/

/-- The in-place update function of `recSet` only changes the value at the
written key, never the keys. -/
theorem recGet_map_setfn (rest : List (Str × CellValue)) (k k' : Str) (v : CellValue)
    (h : k' ≠ k) :
    recGet (rest.map (fun x => if x.1 == k then (k, v) else x)) k' = recGet rest k' := by
  induction rest with
  | nil => rfl
  | cons e tl ih =>
    rcases he : (e.1 == k) with _ | _
    · rcases he' : (e.1 == k') with _ | _
      · simp [recGet, List.find?, he, he'] at ih ⊢
        exact ih
      · simp [recGet, List.find?, he, he']
    · have hek : e.1 = k := by simpa using he
      have hkk' : (k == k') = false := by
        simp only [beq_eq_false_iff_ne]
        exact fun hk => h hk.symm
      have hek' : (e.1 == k') = false := by rw [hek]; exact hkk'
      simp [recGet, List.find?, he, hek', hkk'] at ih ⊢
      exact ih

/-- The in-place update function of `recSet` rewrites the written key's
value wherever the key was present. -/
theorem recGet_map_setfn_self (rest : List (Str × CellValue)) (k : Str) (v : CellValue) :
    recGet (rest.map (fun x => if x.1 == k then (k, v) else x)) k
      = (recGet rest k).map (fun _ => v) := by
  induction rest with
  | nil => rfl
  | cons e tl ih =>
    rcases he : (e.1 == k) with _ | _
    · simp [recGet, List.find?, he] at ih ⊢
      exact ih
    · simp [recGet, List.find?, he]

/-- Setting a key makes it readable. -/
theorem recGet_recSet_self (cells : List (Str × CellValue)) (k : Str) (v : CellValue) :
    recGet (recSet cells k v) k = some v := by
  rw [recSet]
  split
  · rename_i hsome
    rw [recGet_map_setfn_self]
    rcases hx : cells.find? (fun e => e.1 == k) with _ | x
    · rw [hx] at hsome
      exact absurd hsome (by simp)
    · simp [recGet, hx]
  · rename_i hns
    rcases hx : cells.find? (fun e => e.1 == k) with _ | x
    · rw [recGet, List.find?_append, hx]
      simp [List.find?]
    · exact absurd (by rw [hx]; rfl) hns

/-- Setting one key leaves every other key's value unchanged. -/
theorem recGet_recSet_ne (cells : List (Str × CellValue)) (k k' : Str) (v : CellValue)
    (h : k' ≠ k) :
    recGet (recSet cells k v) k' = recGet cells k' := by
  rw [recSet]
  split
  · exact recGet_map_setfn cells k k' v h
  · have hkk' : (k == k') = false := by
      simp only [beq_eq_false_iff_ne]
      exact fun hk => h hk.symm
    rw [recGet, List.find?_append]
    simp only [List.find?, hkk']
    rcases hx : cells.find? (fun e => e.1 == k') with _ | x
    · simp [recGet, hx, List.find?, hkk']
    · simp [recGet, hx]

/-! ### Paste-loop lemmas (for C8) -/

/-- An in-place cell write never changes the heap size. -/
theorem pasteCellWrite_length (heap : Heap) (addr : Nat) (k : Str) (v : CellValue) :
    (pasteCellWrite heap addr k v).length = heap.length := by
  rw [pasteCellWrite]
  split
  · rfl
  · simp [List.length_set]

/-- An in-place cell write touches no other row object. -/
theorem heapRow_pasteCellWrite_ne (heap : Heap) (addr : Nat) (k : Str) (v : CellValue)
    (a : Nat) (ha : a ≠ addr) :
    heapRow (pasteCellWrite heap addr k v) a = heapRow heap a := by
  rw [pasteCellWrite]
  split
  · rfl
  · simp [heapRow, List.getD_eq_getElem?_getD, List.getElem?_set_ne (fun h => ha h.symm)]

/-- An in-place cell write rewrites exactly the written key of the target
row object. -/
theorem heapRow_pasteCellWrite_self (heap : Heap) (addr : Nat) (k : Str) (v : CellValue)
    (ha : addr < heap.length) :
    heapRow (pasteCellWrite heap addr k v) addr
      = { heapRow heap addr with cells := recSet (heapRow heap addr).cells k v } := by
  have hg : heap.get? addr = some heap[addr] := by
    rw [List.get?_eq_getElem?, List.getElem?_eq_getElem ha]
  rw [pasteCellWrite, hg]
  have hrow : heapRow heap addr = heap[addr] := by
    simp [heapRow, List.getD_eq_getElem?_getD, List.getElem?_eq_getElem ha]
  simp [heapRow, List.getD_eq_getElem?_getD, List.getElem?_set_self ha, hrow,
    List.getElem?_eq_getElem ha]

/-- The inner paste loop never changes the heap size. -/
theorem pasteRowCells_length (cols : List ColumnDef) (visRow addr c1 : Nat) (df : Str) :
    ∀ (mrow : List Str) (j : Nat) (heap : Heap),
      (pasteRowCells cols visRow addr c1 df mrow j heap).length = heap.length := by
  intro mrow
  induction mrow with
  | nil => intro j heap; rfl
  | cons raw rest ih =>
    intro j heap
    rw [pasteRowCells]
    split
    · rw [ih]
      simp [isAggregatedCell, pasteCellWrite_length]
    · rfl

/-- The inner paste loop touches no other row object. -/
theorem pasteRowCells_frame (cols : List ColumnDef) (visRow addr c1 : Nat) (df : Str) :
    ∀ (mrow : List Str) (j : Nat) (heap : Heap) (a : Nat), a ≠ addr →
      heapRow (pasteRowCells cols visRow addr c1 df mrow j heap) a = heapRow heap a := by
  intro mrow
  induction mrow with
  | nil => intro j heap a _; rfl
  | cons raw rest ih =>
    intro j heap a ha
    rw [pasteRowCells]
    split
    · rw [ih _ _ _ ha]
      simp [isAggregatedCell, heapRow_pasteCellWrite_ne _ _ _ _ _ ha]
    · rfl

/-- The inner paste loop keeps the target row's id and indent. -/
theorem pasteRowCells_id_indent (cols : List ColumnDef) (visRow addr c1 : Nat) (df : Str) :
    ∀ (mrow : List Str) (j : Nat) (heap : Heap),
      (heapRow (pasteRowCells cols visRow addr c1 df mrow j heap) addr).id
          = (heapRow heap addr).id ∧
        (heapRow (pasteRowCells cols visRow addr c1 df mrow j heap) addr).indent
          = (heapRow heap addr).indent := by
  intro mrow
  induction mrow with
  | nil => intro j heap; exact ⟨rfl, rfl⟩
  | cons raw rest ih =>
    intro j heap
    rw [pasteRowCells]
    split
    · simp only [isAggregatedCell, if_neg Bool.false_ne_true]
      rcases ih (j + 1)
          (pasteCellWrite heap addr (cols.getD (c1 + j) dCol).key
            (coerceValueForColumn (cols.getD (c1 + j) dCol) raw df)) with ⟨h1, h2⟩
      rw [h1, h2]
      by_cases ha : addr < heap.length
      · rw [heapRow_pasteCellWrite_self _ _ _ _ ha]
        exact ⟨rfl, rfl⟩
      · have hg : heap.get? addr = none := List.get?_eq_none.mpr (by omega)
        rw [pasteCellWrite, hg]
        exact ⟨rfl, rfl⟩
    · exact ⟨rfl, rfl⟩

/-- The inner paste loop leaves keys it does not write unchanged. -/
theorem pasteRowCells_otherkey (cols : List ColumnDef) (visRow addr c1 : Nat) (df : Str) :
    ∀ (mrow : List Str) (j : Nat) (heap : Heap) (k : Str),
      (∀ jj, jj < mrow.length → c1 + j + jj < cols.length →
        k ≠ (cols.getD (c1 + j + jj) dCol).key) →
      recGet (heapRow (pasteRowCells cols visRow addr c1 df mrow j heap) addr).cells k
        = recGet (heapRow heap addr).cells k := by
  intro mrow
  induction mrow with
  | nil => intro j heap k _; rfl
  | cons raw rest ih =>
    intro j heap k hk
    rw [pasteRowCells]
    split
    · rename_i hcc
      simp only [isAggregatedCell, if_neg Bool.false_ne_true]
      rw [ih (j + 1) _ k (fun jj hjj hcols => by
        have := hk (jj + 1) (by simpa using Nat.succ_lt_succ hjj) (by omega)
        convert this using 3
        omega)]
      by_cases ha : addr < heap.length
      · rw [heapRow_pasteCellWrite_self _ _ _ _ ha]
        exact recGet_recSet_ne _ _ _ _ (hk 0 (by simp) (by omega))
      · have hg : heap.get? addr = none := List.get?_eq_none.mpr (by omega)
        rw [pasteCellWrite, hg]
    · rfl

/-- Distinct column positions carry distinct keys when the key list has no
duplicates. -/
theorem cols_key_ne (cols : List ColumnDef) (hkeys : (cols.map ColumnDef.key).Nodup)
    (i1 i2 : Nat) (h1 : i1 < cols.length) (h2 : i2 < cols.length) (hne : i1 ≠ i2) :
    (cols.getD i1 dCol).key ≠ (cols.getD i2 dCol).key := by
  intro heq
  apply hne
  have e1 : (cols.getD i1 dCol).key
      = (cols.map ColumnDef.key).get ⟨i1, by simpa using h1⟩ := by
    simp [List.getD_eq_getElem?_getD, List.getElem?_eq_getElem h1]
  have e2 : (cols.getD i2 dCol).key
      = (cols.map ColumnDef.key).get ⟨i2, by simpa using h2⟩ := by
    simp [List.getD_eq_getElem?_getD, List.getElem?_eq_getElem h2]
  rw [e1, e2] at heq
  rw [List.get_eq_getElem, List.get_eq_getElem] at heq
  exact (List.Nodup.getElem_inj_iff hkeys).mp heq

/-- The inner paste loop writes each clipboard cell, coerced by its
column's type rules, into the column at the selection's column-start plus
the cell offset. -/
theorem pasteRowCells_written (cols : List ColumnDef) (visRow addr c1 : Nat) (df : Str)
    (hkeys : (cols.map ColumnDef.key).Nodup) :
    ∀ (mrow : List Str) (j : Nat) (heap : Heap) (jj : Nat),
      addr < heap.length → jj < mrow.length → c1 + j + jj < cols.length →
      recGet (heapRow (pasteRowCells cols visRow addr c1 df mrow j heap) addr).cells
          ((cols.getD (c1 + j + jj) dCol).key)
        = some (coerceValueForColumn (cols.getD (c1 + j + jj) dCol) (mrow.getD jj []) df) := by
  intro mrow
  induction mrow with
  | nil => intro j heap jj _ hjj _; exact absurd hjj (by simp)
  | cons raw rest ih =>
    intro j heap jj haddr hjj hcols
    have hcc : c1 + j < cols.length := by omega
    rw [pasteRowCells]
    rw [if_pos hcc]
    simp only [isAggregatedCell, if_neg Bool.false_ne_true]
    rcases jj with _ | jj'
    · -- the head cell: written now, untouched by the rest of the loop
      rw [pasteRowCells_otherkey cols visRow addr c1 df rest (j + 1) _ _
        (fun jj2 hjj2 hcols2 =>
          (cols_key_ne cols hkeys (c1 + j + 0) (c1 + (j + 1) + jj2)
            (by omega) hcols2 (by omega)))]
      rw [heapRow_pasteCellWrite_self _ _ _ _ haddr]
      have h0 : c1 + j + 0 = c1 + j := by omega
      rw [h0]
      exact recGet_recSet_self _ _ _
    · -- a later cell: induction with the shifted loop index
      have hconv : c1 + j + (jj' + 1) = c1 + (j + 1) + jj' := by omega
      rw [hconv]
      rw [ih (j + 1) _ jj' (by rw [pasteCellWrite_length]; exact haddr)
        (by simpa using Nat.lt_of_succ_lt_succ (Nat.succ_lt_succ hjj)) (by omega)]
      rfl

/-- The outer paste loop never changes the heap size. -/
theorem pasteRows_length (cols : List ColumnDef) (visible : List Nat) (coll : Coll)
    (c1 : Nat) (df : Str) :
    ∀ (m : List (List Str)) (k : Nat) (heap : Heap),
      (pasteRows cols visible coll c1 df m k heap).length = heap.length := by
  intro m
  induction m with
  | nil => intro k heap; rfl
  | cons mrow rest ih =>
    intro k heap
    rw [pasteRows]
    rcases hv : visible.get? k with _ | visRow
    · rfl
    · rw [ih, pasteRowCells_length]

/-- The outer paste loop touches no row object outside its targets. -/
theorem pasteRows_frame (cols : List ColumnDef) (visible : List Nat) (coll : Coll)
    (c1 : Nat) (df : Str) :
    ∀ (m : List (List Str)) (k : Nat) (heap : Heap) (a : Nat),
      (∀ i visRow, i < m.length → visible.get? (k + i) = some visRow →
        a ≠ coll.getD visRow 0) →
      heapRow (pasteRows cols visible coll c1 df m k heap) a = heapRow heap a := by
  intro m
  induction m with
  | nil => intro k heap a _; rfl
  | cons mrow rest ih =>
    intro k heap a ha
    rw [pasteRows]
    rcases hv : visible.get? k with _ | visRow
    · rfl
    · rw [ih (k + 1) _ a (fun i v hi hv2 =>
        ha (i + 1) v (by simpa using Nat.succ_lt_succ hi) (by
          have : k + 1 + i = k + (i + 1) := by omega
          rwa [this] at hv2))]
      exact pasteRowCells_frame cols visRow (coll.getD visRow 0) c1 df mrow 0 heap a
        (ha 0 visRow (by simp) (by simpa using hv))

/-- Content of a pasted target row after the outer loop: id and indent are
kept, every in-range clipboard cell is written coerced, and every other
key keeps its prior value. -/
theorem pasteRows_content (cols : List ColumnDef) (visible : List Nat) (coll : Coll)
    (c1 : Nat) (df : Str) (hkeys : (cols.map ColumnDef.key).Nodup) :
    ∀ (m : List (List Str)) (k : Nat) (heap : Heap) (i visRow : Nat),
      i < m.length → visible.get? (k + i) = some visRow →
      (∀ i1 i2 v1 v2, i1 < m.length → i2 < m.length →
        visible.get? (k + i1) = some v1 → visible.get? (k + i2) = some v2 →
        i1 ≠ i2 → coll.getD v1 0 ≠ coll.getD v2 0) →
      coll.getD visRow 0 < heap.length →
      ((heapRow (pasteRows cols visible coll c1 df m k heap) (coll.getD visRow 0)).id
          = (heapRow heap (coll.getD visRow 0)).id ∧
        (heapRow (pasteRows cols visible coll c1 df m k heap) (coll.getD visRow 0)).indent
          = (heapRow heap (coll.getD visRow 0)).indent) ∧
      (∀ jj, jj < (m.getD i []).length → c1 + jj < cols.length →
        recGet (heapRow (pasteRows cols visible coll c1 df m k heap)
            (coll.getD visRow 0)).cells ((cols.getD (c1 + jj) dCol).key)
          = some (coerceValueForColumn (cols.getD (c1 + jj) dCol)
              ((m.getD i []).getD jj []) df)) ∧
      (∀ kk : Str,
        (∀ jj, jj < (m.getD i []).length → c1 + jj < cols.length →
          kk ≠ (cols.getD (c1 + jj) dCol).key) →
        recGet (heapRow (pasteRows cols visible coll c1 df m k heap)
            (coll.getD visRow 0)).cells kk
          = recGet (heapRow heap (coll.getD visRow 0)).cells kk) := by
  intro m
  induction m with
  | nil => intro k heap i visRow hi; exact absurd hi (by simp)
  | cons mrow rest ih =>
    intro k heap i visRow hi hv hdis haddr
    rw [pasteRows]
    rcases hv0 : visible.get? k with _ | v0
    · exfalso
      have hlen : visible.length ≤ k := by
        have := List.get?_eq_none.mp hv0
        omega
      have := List.get?_eq_none.mpr (show visible.length ≤ k + i by omega)
      rw [this] at hv
      exact Option.noConfusion hv
    · rcases i with _ | i'
      · -- the first clipboard row: this iteration writes it, the rest skip it
        have hveq : visRow = v0 := by
          rw [show k + 0 = k by omega, hv0] at hv
          exact (Option.some.inj hv).symm
        subst hveq
        have hframe :
            heapRow (pasteRows cols visible coll c1 df rest (k + 1)
                (pasteRowCells cols visRow (coll.getD visRow 0) c1 df mrow 0 heap))
              (coll.getD visRow 0)
            = heapRow (pasteRowCells cols visRow (coll.getD visRow 0) c1 df mrow 0 heap)
              (coll.getD visRow 0) := by
          refine pasteRows_frame cols visible coll c1 df rest (k + 1) _ _ ?_
          intro i2 v2 hi2 hv2
          refine hdis 0 (i2 + 1) visRow v2 (by simp) (by simpa using Nat.succ_lt_succ hi2)
            (by simpa using hv) (by
              have : k + 1 + i2 = k + (i2 + 1) := by omega
              rwa [this] at hv2) (by omega)
        rw [hframe]
        refine ⟨⟨(pasteRowCells_id_indent cols visRow _ c1 df mrow 0 heap).1,
          (pasteRowCells_id_indent cols visRow _ c1 df mrow 0 heap).2⟩, ?_, ?_⟩
        · intro jj hjj hcols
          have := pasteRowCells_written cols visRow (coll.getD visRow 0) c1 df hkeys
            mrow 0 heap jj haddr (by simpa using hjj) (by omega)
          simpa using this
        · intro kk hkk
          exact pasteRowCells_otherkey cols visRow (coll.getD visRow 0) c1 df mrow 0 heap kk
            (fun jj hjj hcols => hkk jj (by simpa using hjj) (by
              have : c1 + 0 + jj = c1 + jj := by omega
              rwa [this] at hcols))
      · -- a later clipboard row: induction, and this iteration skips its target
        have hne : coll.getD visRow 0 ≠ coll.getD v0 0 := by
          refine hdis (i' + 1) 0 visRow v0 (by simpa using hi) (by simp)
            hv (by simpa using hv0) (by omega)
        have hv' : visible.get? (k + 1 + i') = some visRow := by
          have : k + 1 + i' = k + (i' + 1) := by omega
          rwa [this]
        have hih := ih (k + 1)
          (pasteRowCells cols v0 (coll.getD v0 0) c1 df mrow 0 heap) i' visRow
          (by simpa using hi) hv'
          (fun i1 i2 v1 v2 hi1 hi2 hg1 hg2 hne12 =>
            hdis (i1 + 1) (i2 + 1) v1 v2 (by simpa using Nat.succ_lt_succ hi1)
              (by simpa using Nat.succ_lt_succ hi2)
              (by
                have : k + 1 + i1 = k + (i1 + 1) := by omega
                rwa [this] at hg1)
              (by
                have : k + 1 + i2 = k + (i2 + 1) := by omega
                rwa [this] at hg2)
              (by omega))
          (by rw [pasteRowCells_length]; exact haddr)
        have hskip :
            heapRow (pasteRowCells cols v0 (coll.getD v0 0) c1 df mrow 0 heap)
              (coll.getD visRow 0) = heapRow heap (coll.getD visRow 0) :=
          pasteRowCells_frame cols v0 (coll.getD v0 0) c1 df mrow 0 heap _ hne
        rw [hskip] at hih
        exact hih

/-- Strictly increasing lists have injective positions. -/
theorem sorted_get?_ne (l : List Nat) (hs : l.Pairwise (· < ·)) (i j a b : Nat)
    (hi : l.get? i = some a) (hj : l.get? j = some b) (hij : i ≠ j) : a ≠ b := by
  have hil : i < l.length := by
    by_contra h
    rw [List.get?_eq_none.mpr (by omega)] at hi
    exact Option.noConfusion hi
  have hjl : j < l.length := by
    by_contra h
    rw [List.get?_eq_none.mpr (by omega)] at hj
    exact Option.noConfusion hj
  have ha : l[i] = a := by
    rw [List.get?_eq_getElem?, List.getElem?_eq_getElem hil] at hi
    exact Option.some.inj hi
  have hb : l[j] = b := by
    rw [List.get?_eq_getElem?, List.getElem?_eq_getElem hjl] at hj
    exact Option.some.inj hj
  have hmono := List.pairwise_iff_getElem.mp hs
  rcases Nat.lt_or_ge i j with h | h
  · have := hmono i j hil hjl h
    omega
  · have hj' : j < i := by omega
    have := hmono j i hjl hil hj'
    omega

/-- Distinct collection positions hold distinct addresses. -/
theorem nodup_getD_ne (coll : Coll) (hnd : coll.Nodup) (v1 v2 : Nat)
    (h1 : v1 < coll.length) (h2 : v2 < coll.length) (hne : v1 ≠ v2) :
    coll.getD v1 0 ≠ coll.getD v2 0 := by
  intro heq
  apply hne
  rw [List.getD_eq_getElem?_getD, List.getElem?_eq_getElem h1,
    List.getD_eq_getElem?_getD, List.getElem?_eq_getElem h2] at heq
  exact (List.Nodup.getElem_inj_iff hnd).mp (by simpa using heq)

/-- A row read off the visible window at offset `i < n` belongs to the
paste-target window. -/
theorem mem_pasteTargets_of_get? (visible : List Nat) (k n i w : Nat)
    (hi : i < n) (hw : visible.get? (k + i) = some w) :
    w ∈ pasteTargets visible k n := by
  have hd : (visible.drop k).get? i = some w := by
    rw [List.get?_drop]
    exact hw
  have ht : ((visible.drop k).take n).get? i = some w := by
    rw [List.get?_take hi]
    exact hd
  exact List.get?_mem ht

/-! ### Visibility-walk ordering lemmas (for C10) -/

/-- Every index the visibility walk emits lies in `[i, i + rows)`. -/
theorem visAux_mem_bound (cset : List Str) (isPar : Nat → Bool) :
    ∀ (xs : List RowData) (i : Nat) (st : List StackEntry) (j : Nat),
      j ∈ visAux cset isPar xs i st → i ≤ j ∧ j < i + xs.length := by
  intro xs
  induction xs with
  | nil => intro i st j hj; simp [visAux] at hj
  | cons rr rest ih =>
    intro i st j hj
    simp only [visAux] at hj
    split at hj
    · have := ih (i + 1) _ _ hj
      simp only [List.length_cons]
      omega
    · rcases List.mem_cons.mp hj with rfl | hj
      · simp only [List.length_cons]
        omega
      · have := ih (i + 1) _ _ hj
        simp only [List.length_cons]
        omega

/-- The visibility walk emits strictly increasing indices. -/
theorem visAux_sorted (cset : List Str) (isPar : Nat → Bool) :
    ∀ (xs : List RowData) (i : Nat) (st : List StackEntry),
      (visAux cset isPar xs i st).Pairwise (· < ·) := by
  intro xs
  induction xs with
  | nil => intro i st; simp [visAux]
  | cons rr rest ih =>
    intro i st
    simp only [visAux]
    split
    · exact ih (i + 1) _
    · refine List.Pairwise.cons ?_ (ih (i + 1) _)
      intro j hj
      have := visAux_mem_bound cset isPar rest (i + 1) _ j hj
      omega

/-- On a strictly increasing list, `find?` returns the least element
satisfying the predicate. -/
theorem sorted_find?_min (l : List Nat) (p : Nat → Bool) (v : Nat)
    (hs : l.Pairwise (· < ·)) (hf : l.find? p = some v) :
    ∀ w ∈ l, p w = true → v ≤ w := by
  induction l with
  | nil => simp at hf
  | cons x xs ih =>
    intro w hw hpw
    rcases hpx : p x with _ | _
    · rw [List.find?_cons_of_neg _ (by simp [hpx])] at hf
      rcases List.mem_cons.mp hw with rfl | hw
      · rw [hpw] at hpx
        exact Bool.noConfusion hpx
      · exact ih (List.Pairwise.of_cons hs) hf w hw hpw
    · rw [List.find?_cons_of_pos _ hpx] at hf
      rcases Option.some.inj hf with rfl
      rcases List.mem_cons.mp hw with rfl | hw
      · exact le_refl w
      · exact le_of_lt (List.rel_of_pairwise_cons hs hw)

/-- **C10** — When the selection anchor row is absent from the visible-row
projection (for any movement direction), `nextPosAfter` keeps the column
unchanged and returns the nearest visible row whose data index is `≥` the
anchor, or the last visible row when every visible row lies before the
anchor. -/
theorem claim_C10 (rows : List RowData) (cset : List Str) (numCols r : Nat) (c : Int)
    (dir : NavDir)
    (hne : visibleRowIndices rows cset ≠ [])
    (habs : r ∉ visibleRowIndices rows cset) :
    (nextPosAfter (visibleRowIndices rows cset) numCols r c dir).2 = c ∧
    ((∃ v, (visibleRowIndices rows cset).find? (fun v => decide (r ≤ v)) = some v ∧
        (nextPosAfter (visibleRowIndices rows cset) numCols r c dir).1 = v ∧
        v ∈ visibleRowIndices rows cset ∧ r ≤ v ∧
        ∀ w ∈ visibleRowIndices rows cset, r ≤ w → v ≤ w) ∨
      ((∀ w ∈ visibleRowIndices rows cset, w < r) ∧
        (nextPosAfter (visibleRowIndices rows cset) numCols r c dir).1
          = (visibleRowIndices rows cset).getLast hne)) := by
  have hfi : (visibleRowIndices rows cset).findIdx? (fun v => v == r) = none := by
    rw [List.findIdx?_eq_none_iff]
    intro x hx
    simp only [beq_eq_false_iff_ne]
    rintro rfl
    exact habs hx
  rcases hf : (visibleRowIndices rows cset).find? (fun v => decide (r ≤ v)) with _ | v
  · refine ⟨by simp [nextPosAfter, hfi, hf], Or.inr ⟨?_, ?_⟩⟩
    · intro w hw
      have := List.find?_eq_none.mp hf w hw
      simpa using this
    · simp only [nextPosAfter, hfi, hf]
      rw [List.getLast?_eq_getLast _ hne]
      rfl
  · refine ⟨by simp [nextPosAfter, hfi, hf], Or.inl ⟨v, rfl, ?_, ?_, ?_, ?_⟩⟩
    · simp [nextPosAfter, hfi, hf]
    · exact List.mem_of_find?_eq_some hf
    · have := List.find?_some hf
      simpa using this
    · intro w hw hrw
      exact sorted_find?_min _ _ _ (visAux_sorted cset _ rows 0 []) hf w hw (by simpa)

/-- Witness for `claim_C10`: with the sample rows and row 0 collapsed,
only row 0 is visible; navigating from the hidden anchor row 1 keeps the
column and lands on the last visible row. -/
theorem claim_C10_witness :
    (nextPosAfter
        (visibleRowIndices (materialize sampleIndentState.heap sampleIndentState.data)
          [['x']]) 1 1 0 NavDir.down).2 = 0 ∧
    (nextPosAfter
        (visibleRowIndices (materialize sampleIndentState.heap sampleIndentState.data)
          [['x']]) 1 1 0 NavDir.down).1 = 0 := by
  have h := claim_C10 (materialize sampleIndentState.heap sampleIndentState.data)
    [['x']] 1 1 0 NavDir.down (by decide) (by decide)
  refine ⟨h.1, ?_⟩
  rcases h.2 with ⟨v, hv, hres, _, _, _⟩ | ⟨_, hres⟩
  · have hnone :
        (visibleRowIndices (materialize sampleIndentState.heap sampleIndentState.data)
          [['x']]).find? (fun v => decide (1 ≤ v)) = none := by decide
    rw [hnone] at hv
    exact Option.noConfusion hv
  · rw [hres]
    decide

/-! ### Frame lemmas (for C6) -/

/-- Allocating fresh rows does not change what any previously held
collection observes. -/
theorem materialize_append (h : Heap) (x : RowData) (coll : Coll)
    (hwf : ∀ a ∈ coll, a < h.length) :
    materialize (h ++ [x]) coll = materialize h coll := by
  simp only [materialize]
  exact List.map_congr_left fun a ha => heapRow_append _ _ _ (hwf a ha)

/-- **C6** (amended) — Cell commit and indent adjustment only allocate
fresh row objects: the row collection held before the operation still
observes exactly the old row values afterwards.  (The claim's inclusion of
paste fails: `onPaste` copies the top-level array but writes into the
existing row objects in place, so the previously held collection sees the
pasted values — see the counterexample.) -/
theorem claim_C6 (st : CoreState) (df : Str) (r c : Nat) (raw : Str) (endEdit : Bool)
    (rowIdx : Nat) (delta : Int)
    (hwf : ∀ a ∈ st.data, a < st.heap.length) :
    materialize (commitCellValue st df r c raw endEdit).1.heap st.data
      = materialize st.heap st.data ∧
    materialize (indentRowOp st rowIdx delta).1.heap st.data
      = materialize st.heap st.data := by
  constructor
  · by_cases hr : r < st.data.length
    · simp only [commitCellValue, if_pos hr]
      exact materialize_append _ _ _ hwf
    · simp only [commitCellValue, if_neg hr]
  · rcases hcur : (materialize st.heap st.data).get? rowIdx with _ | cur
    · unfold indentRowOp
      rw [hcur]
    · unfold indentRowOp
      rw [hcur]
      dsimp only
      split <;> split <;> first
        | rfl
        | exact materialize_append _ _ _ hwf

/-- Counterexample to **C6** as stated: pasting `"Q"` over the selected
cell of `samplePasteState` changes the row values observed through the
collection held *before* the paste (the paste wrote into the existing row
object), so paste does mutate the previously held collection's rows. -/
theorem counterexample_C6 :
    materialize (onPaste samplePasteState ['d'] ['Q']).1.heap samplePasteState.data
      ≠ materialize samplePasteState.heap samplePasteState.data := by
  decide

/-- Witness for `claim_C6` at a concrete state: committing `"Q"` into the
sample state leaves the old collection's observed rows unchanged. -/
theorem claim_C6_witness :
    materialize (commitCellValue samplePasteState ['d'] 0 0 ['Q'] true).1.heap
        samplePasteState.data
      = materialize samplePasteState.heap samplePasteState.data :=
  (claim_C6 samplePasteState ['d'] 0 0 ['Q'] true 0 1 (by decide)).1

/-- Witness for `claim_C5` at a concrete state: Alt+Right on row 1 of the
sample collection keeps the target row's indent within its local bounds. -/
theorem claim_C5_witness :
    0 ≤ ((materialize (indentRowOp sampleIndentState 1 1).1.heap
        (indentRowOp sampleIndentState 1 1).1.data).getD 1 dRow).indent ∧
    ((materialize (indentRowOp sampleIndentState 1 1).1.heap
        (indentRowOp sampleIndentState 1 1).1.data).getD 1 dRow).indent
      ≤ (if (1 : Nat) = 0 then 0
          else ((materialize sampleIndentState.heap sampleIndentState.data).getD 0 dRow).indent) + 1 := by
  have h := claim_C5 sampleIndentState 1 1 (by decide) (by decide)
  exact ⟨(h.2.2 (by decide)).2.1, (h.2.2 (by decide)).2.2.1⟩

/-- Members of the visible projection are valid row indices. -/
theorem visible_mem_lt (rows : List RowData) (cset : List Str) (v : Nat)
    (hv : v ∈ visibleRowIndices rows cset) : v < rows.length := by
  have := visAux_mem_bound cset (fun i => (computeHasChildren rows).contains i)
    rows 0 [] v hv
  omega

/-- **C8** — Pasting `N` clipboard rows writes position-for-position into
the `N` consecutive entries of the visible-row projection starting at the
visible position of the selection's row-start; rows outside that window
(in particular all hidden rows) are never written; within a written row,
the clipboard cell at offset `jj` lands, coerced, in the column
`col-start + jj` and cells that would land beyond the last defined column
are dropped (every other key keeps its value); the collection's addresses,
the column list and the heap size are unchanged (no row or column growth);
the copied collection is propagated once; and an empty payload is a
no-op. -/
theorem claim_C8 (st : CoreState) (df txt : Str)
    (hwf : ∀ a ∈ st.data, a < st.heap.length)
    (hnd : st.data.Nodup)
    (hkeys : (st.cols.map ColumnDef.key).Nodup)
    (hlen : st.data.length = (materialize st.heap st.data).length)
    (hsel : hasSel st.sel = true)
    (htxt : txt ≠ [])
    (startIdx : Nat)
    (hstart : (visibleRowIndices (materialize st.heap st.data) st.collapsed).findIdx?
        (fun v => Int.ofNat v == st.sel.r1) = some startIdx) :
    (onPaste st df txt).1.data = st.data ∧
    (onPaste st df txt).1.cols = st.cols ∧
    (onPaste st df txt).1.heap.length = st.heap.length ∧
    (onPaste st df txt).2 = [materialize (onPaste st df txt).1.heap st.data] ∧
    (∀ v, v < st.data.length →
      v ∉ pasteTargets (visibleRowIndices (materialize st.heap st.data) st.collapsed)
        startIdx (parseClipboard txt).length →
      (materialize (onPaste st df txt).1.heap st.data).getD v dRow
        = (materialize st.heap st.data).getD v dRow) ∧
    (∀ i visRow, i < (parseClipboard txt).length →
      (visibleRowIndices (materialize st.heap st.data) st.collapsed).get? (startIdx + i)
        = some visRow →
      ((materialize (onPaste st df txt).1.heap st.data).getD visRow dRow).id
          = ((materialize st.heap st.data).getD visRow dRow).id ∧
      ((materialize (onPaste st df txt).1.heap st.data).getD visRow dRow).indent
          = ((materialize st.heap st.data).getD visRow dRow).indent ∧
      (∀ jj, jj < ((parseClipboard txt).getD i []).length →
        st.sel.c1.toNat + jj < st.cols.length →
        recGet ((materialize (onPaste st df txt).1.heap st.data).getD visRow dRow).cells
            ((st.cols.getD (st.sel.c1.toNat + jj) dCol).key)
          = some (coerceValueForColumn (st.cols.getD (st.sel.c1.toNat + jj) dCol)
              (((parseClipboard txt).getD i []).getD jj []) df)) ∧
      (∀ kk : Str,
        (∀ jj, jj < ((parseClipboard txt).getD i []).length →
          st.sel.c1.toNat + jj < st.cols.length →
          kk ≠ (st.cols.getD (st.sel.c1.toNat + jj) dCol).key) →
        recGet ((materialize (onPaste st df txt).1.heap st.data).getD visRow dRow).cells kk
          = recGet ((materialize st.heap st.data).getD visRow dRow).cells kk)) ∧
    (∀ (st2 : CoreState) (df2 : Str), onPaste st2 df2 [] = (st2, [])) := by
  have hvis := visAux_sorted st.collapsed
    (fun i => (computeHasChildren (materialize st.heap st.data)).contains i)
    (materialize st.heap st.data) 0 []
  have hres : onPaste st df txt =
      ({ st with
          heap := pasteRows st.cols
            (visibleRowIndices (materialize st.heap st.data) st.collapsed) st.data
            st.sel.c1.toNat df (parseClipboard txt) startIdx st.heap },
        [materialize
          (pasteRows st.cols
            (visibleRowIndices (materialize st.heap st.data) st.collapsed) st.data
            st.sel.c1.toNat df (parseClipboard txt) startIdx st.heap) st.data]) := by
    unfold onPaste
    rw [hsel]
    dsimp only
    rw [if_neg htxt, hstart]
    simp
  have hdis : ∀ i1 i2 v1 v2, i1 < (parseClipboard txt).length →
      i2 < (parseClipboard txt).length →
      (visibleRowIndices (materialize st.heap st.data) st.collapsed).get? (startIdx + i1)
        = some v1 →
      (visibleRowIndices (materialize st.heap st.data) st.collapsed).get? (startIdx + i2)
        = some v2 →
      i1 ≠ i2 → st.data.getD v1 0 ≠ st.data.getD v2 0 := by
    intro i1 i2 v1 v2 hi1 hi2 hg1 hg2 hne
    have hv1 : v1 < st.data.length := by
      rw [hlen]
      exact visible_mem_lt _ _ _ (List.get?_mem hg1)
    have hv2 : v2 < st.data.length := by
      rw [hlen]
      exact visible_mem_lt _ _ _ (List.get?_mem hg2)
    have hvne : v1 ≠ v2 :=
      sorted_get?_ne _ hvis _ _ _ _ hg1 hg2 (by omega)
    exact nodup_getD_ne st.data hnd v1 v2 hv1 hv2 hvne
  rw [hres]
  refine ⟨rfl, rfl, pasteRows_length _ _ _ _ _ _ _ _, rfl, ?_, ?_, ?_⟩
  · -- rows outside the window are untouched
    intro v hv hnt
    rw [materialize_getD _ _ _ hv, materialize_getD _ _ _ hv]
    refine pasteRows_frame _ _ _ _ _ _ _ _ _ ?_
    intro i visRow hi hg
    have hmem : visRow ∈ pasteTargets
        (visibleRowIndices (materialize st.heap st.data) st.collapsed) startIdx
        (parseClipboard txt).length :=
      mem_pasteTargets_of_get? _ _ _ _ _ hi hg
    have hvr : visRow < st.data.length := by
      rw [hlen]
      exact visible_mem_lt _ _ _ (List.get?_mem hg)
    have hne : v ≠ visRow := fun he => hnt (he ▸ hmem)
    exact nodup_getD_ne st.data hnd v visRow hv hvr hne
  · -- written rows
    intro i visRow hi hg
    have hvr : visRow < st.data.length := by
      rw [hlen]
      exact visible_mem_lt _ _ _ (List.get?_mem hg)
    have haddr : st.data.getD visRow 0 < st.heap.length :=
      hwf _ (getD_mem_of_lt _ _ _ hvr)
    have hcontent := pasteRows_content st.cols
      (visibleRowIndices (materialize st.heap st.data) st.collapsed) st.data
      st.sel.c1.toNat df hkeys (parseClipboard txt) startIdx st.heap i visRow hi hg
      hdis haddr
    rw [materialize_getD _ _ _ hvr, materialize_getD _ _ _ hvr]
    exact ⟨hcontent.1.1, hcontent.1.2, hcontent.2.1, hcontent.2.2⟩
  · -- empty payload
    intro st2 df2
    rw [onPaste]
    split
    · rfl
    · rfl

/-- Witness for `claim_C8`: pasting `"Q"` into the selected cell of the
sample state stores `"Q"` in column `a` of row 0. -/
theorem claim_C8_witness :
    recGet ((materialize (onPaste samplePasteState ['d'] ['Q']).1.heap
        samplePasteState.data).getD 0 dRow).cells
      ((samplePasteState.cols.getD 0 dCol).key)
      = some (coerceValueForColumn (samplePasteState.cols.getD 0 dCol) ['Q'] ['d']) := by
  have h := claim_C8 samplePasteState ['d'] ['Q'] (by decide) (by decide) (by decide)
    (by decide) (by decide) (by decide) 0 (by decide)
  have h6 := h.2.2.2.2.2.1 0 0 (by decide) (by decide)
  have := h6.2.2.1 0 (by decide) (by decide)
  simpa using this

/-! ### Visibility-walk structure lemmas (for C7) -/

/-- Popping stops at an entry the predicate rejects. -/
theorem dropWhile_append_stop {p : StackEntry → Bool} (ext : List StackEntry)
    (e : StackEntry) (st : List StackEntry) (he : p e = false) :
    (ext ++ e :: st).dropWhile p = ext.dropWhile p ++ e :: st := by
  induction ext with
  | nil => simp [List.dropWhile_cons, he]
  | cons x xs ih =>
    rcases hx : p x with _ | _
    · simp [List.dropWhile_cons, hx]
    · simp [List.dropWhile_cons, hx, ih]

/-- Popping runs through entries the predicate accepts. -/
theorem dropWhile_append_all {p : StackEntry → Bool} (ext : List StackEntry)
    (e : StackEntry) (st : List StackEntry)
    (hall : ∀ x ∈ ext, p x = true) (he : p e = true) :
    (ext ++ e :: st).dropWhile p = st.dropWhile p := by
  induction ext with
  | nil => simp [List.dropWhile_cons, he]
  | cons x xs ih =>
    simp only [List.cons_append, List.dropWhile_cons, hall x (by simp)]
    exact ih (fun x hx => hall x (by simp [hx]))

/-- The visibility walk splits over list append, threading the stack. -/
theorem visAux_append (cset : List Str) (isPar : Nat → Bool) :
    ∀ (xs ys : List RowData) (i : Nat) (st : List StackEntry),
      visAux cset isPar (xs ++ ys) i st
        = visAux cset isPar xs i st
            ++ visAux cset isPar ys (i + xs.length) (visStackAfter cset isPar xs i st) := by
  intro xs
  induction xs with
  | nil => intro ys i st; simp [visAux, visStackAfter]
  | cons r rest ih =>
    intro ys i st
    simp only [List.cons_append, visAux, visStackAfter, List.append_eq]
    rw [ih]
    have : i + 1 + rest.length = i + (rest.length + 1) := by omega
    rw [this]
    split <;> simp [List.length_cons]

/-- Two collapse sets that agree on every id of the suffix drive identical
walks from identical stacks. -/
theorem visAux_congr (cset cset' : List Str) (isPar : Nat → Bool) :
    ∀ (xs : List RowData) (i : Nat) (st : List StackEntry),
      (∀ r ∈ xs, cset.contains r.id = cset'.contains r.id) →
      visAux cset isPar xs i st = visAux cset' isPar xs i st ∧
        visStackAfter cset isPar xs i st = visStackAfter cset' isPar xs i st := by
  intro xs
  induction xs with
  | nil => intro i st _; exact ⟨rfl, rfl⟩
  | cons r rest ih =>
    intro i st hids
    have hflag : cset.contains r.id = cset'.contains r.id := hids r (by simp)
    rcases ih (i + 1)
        (⟨r.id, r.indent, if isPar i then cset'.contains r.id else false⟩ ::
          st.dropWhile (fun e => r.indent ≤ e.indent))
        (fun x hx => hids x (by simp [hx])) with ⟨h1, h2⟩
    constructor
    · simp only [visAux, hflag]
      rw [h1]
    · simp only [visStackAfter, hflag]
      rw [h2]

/-- A collapse id that no suffix row carries does not affect the walk. -/
theorem visAux_cons_id (pid : Str) (cset : List Str) (isPar : Nat → Bool)
    (xs : List RowData) (i : Nat) (st : List StackEntry)
    (hx : ∀ r ∈ xs, r.id ≠ pid) :
    visAux (pid :: cset) isPar xs i st = visAux cset isPar xs i st ∧
      visStackAfter (pid :: cset) isPar xs i st = visStackAfter cset isPar xs i st := by
  refine visAux_congr (pid :: cset) cset isPar xs i st ?_
  intro r hr
  have : (r.id == pid) = false := by
    simp only [beq_eq_false_iff_ne]
    exact hx r hr
  simp only [List.contains_cons, this, Bool.false_or]

/-- During the collapsed parent's descendant run, the walk with the parent
flagged collapsed emits nothing, and both walks keep the parent entry on
the stack, evolving the same extension above it. -/
theorem visAux_run (cset : List Str) (pid : Str) (isPar : Nat → Bool)
    (e1 e2 : StackEntry) (base : Int)
    (he1 : e1.indent = base) (he2 : e2.indent = base) (hc2 : e2.collapsed = true) :
    ∀ (R : List RowData) (i : Nat) (ext st : List StackEntry),
      (∀ r ∈ R, base < r.indent) →
      (∀ r ∈ R, r.id ≠ pid) →
      (∀ x ∈ ext, base < x.indent) →
      ∃ ext2, (∀ x ∈ ext2, base < x.indent) ∧
        visStackAfter cset isPar R i (ext ++ e1 :: st) = ext2 ++ e1 :: st ∧
        visStackAfter (pid :: cset) isPar R i (ext ++ e2 :: st) = ext2 ++ e2 :: st ∧
        visAux (pid :: cset) isPar R i (ext ++ e2 :: st) = [] := by
  intro R
  induction R with
  | nil =>
    intro i ext st _ _ hext
    exact ⟨ext, hext, rfl, rfl, rfl⟩
  | cons r rest ih =>
    intro i ext st hind hid hext
    have hlt : base < r.indent := hind r (by simp)
    have hp1 : (fun e => decide (r.indent ≤ e.indent)) e1 = false := by
      simp only [decide_eq_false_iff_not, not_le, he1]
      exact hlt
    have hp2 : (fun e => decide (r.indent ≤ e.indent)) e2 = false := by
      simp only [decide_eq_false_iff_not, not_le, he2]
      exact hlt
    have hd1 := dropWhile_append_stop (p := fun e => decide (r.indent ≤ e.indent))
      ext e1 st hp1
    have hd2 := dropWhile_append_stop (p := fun e => decide (r.indent ≤ e.indent))
      ext e2 st hp2
    have hflag : (pid :: cset).contains r.id = cset.contains r.id := by
      have : (r.id == pid) = false := by
        simp only [beq_eq_false_iff_ne]
        exact hid r (by simp)
      simp only [List.contains_cons, this, Bool.false_or]
    have hextd : ∀ x ∈ (ext.dropWhile (fun e => decide (r.indent ≤ e.indent))),
        base < x.indent :=
      fun x hx => hext x ((List.dropWhile_sublist _).subset hx)
    have hext2 : ∀ x ∈ (⟨r.id, r.indent,
        if isPar i then cset.contains r.id else false⟩ : StackEntry) ::
          ext.dropWhile (fun e => decide (r.indent ≤ e.indent)), base < x.indent := by
      intro x hx
      rcases List.mem_cons.mp hx with rfl | hx
      · exact hlt
      · exact hextd x hx
    rcases ih (i + 1)
      ((⟨r.id, r.indent, if isPar i then cset.contains r.id else false⟩ : StackEntry) ::
        ext.dropWhile (fun e => decide (r.indent ≤ e.indent))) st
      (fun x hx => hind x (by simp [hx])) (fun x hx => hid x (by simp [hx]))
      hext2 with ⟨ext2, hx2, hs1, hs2, hv2⟩
    refine ⟨ext2, hx2, ?_, ?_, ?_⟩
    · simp only [visStackAfter, hd1]
      exact hs1
    · simp only [visStackAfter, hd2, hflag]
      exact hs2
    · have hhid : ((ext.dropWhile (fun e => decide (r.indent ≤ e.indent)) ++ e2 :: st).any
          (fun e => e.collapsed)) = true := by
        rw [List.any_eq_true]
        exact ⟨e2, by simp, hc2⟩
      simp only [visAux, hd2, hhid, if_pos rfl, hflag]
      exact hv2

/-- The parent-detection loop splits over list append. -/
theorem hasChildrenAux_append :
    ∀ (xs ys : List RowData) (i : Nat) (st : List (Nat × Int)),
      hasChildrenAux (xs ++ ys) i st
        = hasChildrenAux xs i st ++ hasChildrenAux ys (i + xs.length) (hcStackAfter xs i st) := by
  intro xs
  induction xs with
  | nil => intro ys i st; simp [hasChildrenAux, hcStackAfter]
  | cons r rest ih =>
    intro ys i st
    simp only [List.cons_append, hasChildrenAux, hcStackAfter, List.append_eq]
    rw [ih]
    have : i + 1 + rest.length = i + (rest.length + 1) := by omega
    rw [this]
    rcases hst : (st.dropWhile (fun e => decide (r.indent ≤ e.2))) with _ | ⟨q, qs⟩ <;>
      rw [hst] <;> simp

/-- The parent-detection stack splits over list append. -/
theorem hcStackAfter_append :
    ∀ (xs ys : List RowData) (i : Nat) (st : List (Nat × Int)),
      hcStackAfter (xs ++ ys) i st
        = hcStackAfter ys (i + xs.length) (hcStackAfter xs i st) := by
  intro xs
  induction xs with
  | nil => intro ys i st; simp [hcStackAfter]
  | cons r rest ih =>
    intro ys i st
    simp only [List.cons_append, hcStackAfter, List.append_eq]
    rw [ih]
    have : i + 1 + rest.length = i + (rest.length + 1) := by omega
    rw [this]
    simp [List.length_cons]

/-- A row immediately followed by a deeper row is recorded as a parent. -/
theorem parent_mem_hasChildren (rows : List RowData) (p : Nat)
    (hp1 : p + 1 < rows.length)
    (hlt : (rows.getD p dRow).indent < (rows.getD (p + 1) dRow).indent) :
    p ∈ computeHasChildren rows := by
  have hp : p < rows.length := by omega
  have hsplit : rows = rows.take (p + 1) ++ (rows.getD (p + 1) dRow :: rows.drop (p + 2)) := by
    rw [List.getD_eq_getElem?_getD, List.getElem?_eq_getElem hp1]
    simp only [Option.getD_some]
    rw [List.getElem_cons_drop]
    exact (List.take_append_drop (p + 1) rows).symm
  have hlen : (rows.take (p + 1)).length = p + 1 := by
    rw [List.length_take]
    omega
  have htake : rows.take (p + 1) = rows.take p ++ [rows.getD p dRow] := by
    rw [List.take_succ]
    rw [List.getElem?_eq_getElem hp]
    rw [List.getD_eq_getElem?_getD, List.getElem?_eq_getElem hp]
    rfl
  have hstack : hcStackAfter (rows.take (p + 1)) 0 []
      = (p, (rows.getD p dRow).indent) ::
          ((hcStackAfter (rows.take p) 0 []).dropWhile
            (fun e => (rows.getD p dRow).indent ≤ e.2)) := by
    rw [htake, hcStackAfter_append]
    have : (rows.take p).length = p := by
      rw [List.length_take]
      omega
    rw [this]
    simp [hcStackAfter]
  rw [computeHasChildren]
  conv_lhs => rw [hsplit]
  rw [hasChildrenAux_append, hlen]
  refine List.mem_append_right _ ?_
  rw [hstack]
  simp only [hasChildrenAux]
  rw [List.dropWhile_cons_of_neg (by
    simp only [decide_eq_true_eq, not_le]
    omega)]
  simp

/-- The head the popper stopped at fails the predicate. -/
theorem dropWhile_head_not {α : Type} (p : α → Bool) :
    ∀ (l : List α) (x : α) (xs : List α), l.dropWhile p = x :: xs → p x = false := by
  intro l
  induction l with
  | nil => intro x xs h; exact absurd h (by simp)
  | cons a l2 ih =>
    intro x xs h
    rcases ha : p a with _ | _
    · rw [List.dropWhile_cons_of_neg (by simp [ha])] at h
      rcases h with ⟨rfl, _⟩
      exact ha
    · rw [List.dropWhile_cons_of_pos (by simp [ha])] at h
      exact ih x xs h

/-- A nonempty `takeWhile` starts at the list's head, which satisfies the
predicate. -/
theorem takeWhile_head {α : Type} (p : α → Bool) (l : List α) (x : α) (xs : List α)
    (h : l.takeWhile p = x :: xs) : l.head? = some x ∧ p x = true := by
  cases l with
  | nil => exact absurd h (by simp)
  | cons a l2 =>
    rcases ha : p a with _ | _
    · rw [List.takeWhile_cons_of_neg (by simp [ha])] at h
      exact absurd h (by simp)
    · rw [List.takeWhile_cons_of_pos (by simp [ha])] at h
      rcases h with ⟨rfl, _⟩
      exact ⟨rfl, ha⟩

/-- Membership in the descendant-run index range. -/
theorem mem_range'_iff (s n m : Nat) :
    m ∈ List.range' s n ↔ (s ≤ m ∧ m < s + n) := by
  rw [List.mem_range']
  constructor
  · rintro ⟨i, hi, rfl⟩
    omega
  · rintro ⟨h1, h2⟩
    exact ⟨m - s, by omega, by omega⟩

/-- Core of the collapse/hide property, stated over a decomposed row list
`prefix ++ parent :: (run ++ rest)`: flagging the parent id collapsed
produces exactly the unflagged walk with the run's indices filtered out. -/
theorem collapse_core (c : List Str) (pid : Str) (isP : Nat → Bool) (base : Int)
    (A : List RowData) (rowp : RowData) (R Z : List RowData)
    (hpid : rowp.id = pid) (hbase : rowp.indent = base)
    (hAid : ∀ r ∈ A, r.id ≠ pid)
    (hRZid : ∀ r ∈ R ++ Z, r.id ≠ pid)
    (hRind : ∀ r ∈ R, base < r.indent)
    (hZhead : ∀ z0 zs, Z = z0 :: zs → z0.indent ≤ base)
    (hcpid : c.contains pid = false)
    (hparR : R ≠ [] → isP A.length = true) :
    visAux (pid :: c) isP (A ++ rowp :: (R ++ Z)) 0 []
      = (visAux c isP (A ++ rowp :: (R ++ Z)) 0 []).filter
          (fun j => decide (j ∉ List.range' (A.length + 1) R.length)) := by
  have hRid : ∀ r ∈ R, r.id ≠ pid := fun r hr => hRZid r (List.mem_append_left _ hr)
  have hZid : ∀ r ∈ Z, r.id ≠ pid := fun r hr => hRZid r (List.mem_append_right _ hr)
  rcases visAux_cons_id pid c isP A 0 [] hAid with ⟨hAvis, hAst⟩
  rw [visAux_append, visAux_append, hAvis, hAst, Nat.zero_add, List.filter_append]
  have hfA : (visAux c isP A 0 []).filter
      (fun j => decide (j ∉ List.range' (A.length + 1) R.length))
      = visAux c isP A 0 [] := by
    rw [List.filter_eq_self]
    intro a ha
    have hb := visAux_mem_bound c isP A 0 [] a ha
    simp only [decide_eq_true_eq]
    rw [mem_range'_iff]
    omega
  rw [hfA]
  congr 1
  -- the parent row's step
  have hc2 : (pid :: c).contains rowp.id = true := by
    rw [hpid]
    simp [List.contains_cons]
  have hc1 : c.contains rowp.id = false := by
    rw [hpid]
    exact hcpid
  simp only [visAux, hc1, hc2, ite_self]
  rcases hRe : R with _ | ⟨r1, R2⟩
  · -- empty run: nothing is hidden, the filter keeps everything
    have hfid : ∀ l : List Nat,
        l.filter (fun j => decide (j ∉ List.range' (A.length + 1) ([] : List RowData).length))
          = l := by
      intro l
      rw [List.filter_eq_self]
      intro a _
      simp
    rw [hfid]
    subst hRe
    simp only [List.nil_append]
    -- tails agree whatever the parent flag is, because the next row (if
    -- any) pops the parent entry before it is consulted
    have htail : ∀ b1 b2 : Bool,
        visAux (pid :: c) isP Z (A.length + 1)
            (⟨rowp.id, rowp.indent, b1⟩ ::
              (visStackAfter c isP A 0 []).dropWhile
                (fun e => decide (rowp.indent ≤ e.indent)))
          = visAux c isP Z (A.length + 1)
            (⟨rowp.id, rowp.indent, b2⟩ ::
              (visStackAfter c isP A 0 []).dropWhile
                (fun e => decide (rowp.indent ≤ e.indent))) := by
      intro b1 b2
      rcases hZe : Z with _ | ⟨z0, Z2⟩
      · rfl
      · have hz0 : z0.indent ≤ base := hZhead z0 Z2 hZe
        have hpop : ∀ b : Bool,
            ((⟨rowp.id, rowp.indent, b⟩ : StackEntry) ::
                (visStackAfter c isP A 0 []).dropWhile
                  (fun e => decide (rowp.indent ≤ e.indent))).dropWhile
              (fun e => decide (z0.indent ≤ e.indent))
            = ((visStackAfter c isP A 0 []).dropWhile
                (fun e => decide (rowp.indent ≤ e.indent))).dropWhile
                (fun e => decide (z0.indent ≤ e.indent)) := by
          intro b
          rw [List.dropWhile_cons_of_pos]
          simp only [decide_eq_true_eq, hbase]
          exact hz0
        simp only [visAux, hpop]
        have hz0id : z0.id ≠ pid := hZid z0 (by simp [hZe])
        have hzflag : (pid :: c).contains z0.id = c.contains z0.id := by
          have : (z0.id == pid) = false := by
            simp only [beq_eq_false_iff_ne]
            exact hz0id
          simp only [List.contains_cons, this, Bool.false_or]
        rw [hzflag]
        rcases visAux_cons_id pid c isP Z2 (A.length + 1 + 1)
            (⟨z0.id, z0.indent, if isP (A.length + 1) = true
                then c.contains z0.id else false⟩ ::
              ((visStackAfter c isP A 0 []).dropWhile
                (fun e => decide (rowp.indent ≤ e.indent))).dropWhile
                (fun e => decide (z0.indent ≤ e.indent)))
            (fun r hr => hZid r (by simp [hZe, hr])) with ⟨hZ2, _⟩
        rw [hZ2]
    rw [htail (if isP A.length = true then true else false) false]
  · -- nonempty run
    have hpar : isP A.length = true := hparR (by simp [hRe])
    rw [hpar]
    simp only [if_pos rfl, if_true]
    rcases visAux_run c pid isP ⟨rowp.id, rowp.indent, false⟩ ⟨rowp.id, rowp.indent, true⟩
        base hbase hbase rfl (r1 :: R2) (A.length + 1) []
        ((visStackAfter c isP A 0 []).dropWhile (fun e => decide (rowp.indent ≤ e.indent)))
        (by rw [← hRe]; exact hRind) (by rw [← hRe]; exact hRid) (by simp)
      with ⟨ext2, hext2, hs1, hs2, hv2⟩
    simp only [List.nil_append] at hs1 hs2 hv2
    rw [← hRe] at hs1 hs2 hv2
    rw [← hRe]
    rw [visAux_append, visAux_append, hv2, hs1, hs2, List.nil_append]
    -- the run part of the unflagged walk is exactly what gets filtered out
    have hfR : (visAux c isP R (A.length + 1)
          (⟨rowp.id, rowp.indent, false⟩ ::
            (visStackAfter c isP A 0 []).dropWhile
              (fun e => decide (rowp.indent ≤ e.indent)))).filter
        (fun j => decide (j ∉ List.range' (A.length + 1) R.length)) = [] := by
      rw [List.filter_eq_nil_iff]
      intro a ha
      have hb := visAux_mem_bound c isP R (A.length + 1) _ a ha
      simp only [decide_eq_true_eq, not_not]
      rw [mem_range'_iff]
      omega
    -- the rest of the walk survives the filter
    have hfZ : (visAux c isP Z (A.length + 1 + R.length)
          (ext2 ++ ⟨rowp.id, rowp.indent, false⟩ ::
            (visStackAfter c isP A 0 []).dropWhile
              (fun e => decide (rowp.indent ≤ e.indent)))).filter
        (fun j => decide (j ∉ List.range' (A.length + 1) R.length))
        = visAux c isP Z (A.length + 1 + R.length)
            (ext2 ++ ⟨rowp.id, rowp.indent, false⟩ ::
              (visStackAfter c isP A 0 []).dropWhile
                (fun e => decide (rowp.indent ≤ e.indent))) := by
      rw [List.filter_eq_self]
      intro a ha
      have hb := visAux_mem_bound c isP Z (A.length + 1 + R.length) _ a ha
      simp only [decide_eq_true_eq]
      rw [mem_range'_iff]
      omega
    -- the rest of the walk does not see the parent's flag
    have hZeq : visAux (pid :: c) isP Z (A.length + 1 + R.length)
          (ext2 ++ ⟨rowp.id, rowp.indent, true⟩ ::
            (visStackAfter c isP A 0 []).dropWhile
              (fun e => decide (rowp.indent ≤ e.indent)))
        = visAux c isP Z (A.length + 1 + R.length)
          (ext2 ++ ⟨rowp.id, rowp.indent, false⟩ ::
            (visStackAfter c isP A 0 []).dropWhile
              (fun e => decide (rowp.indent ≤ e.indent))) := by
      rcases hZe : Z with _ | ⟨z0, Z2⟩
      · rfl
      · have hz0 : z0.indent ≤ base := hZhead z0 Z2 hZe
        have hpop : ∀ b : Bool,
            ((ext2 ++ ⟨rowp.id, rowp.indent, b⟩ ::
                (visStackAfter c isP A 0 []).dropWhile
                  (fun e => decide (rowp.indent ≤ e.indent)))).dropWhile
              (fun e => decide (z0.indent ≤ e.indent))
            = ((visStackAfter c isP A 0 []).dropWhile
                (fun e => decide (rowp.indent ≤ e.indent))).dropWhile
                (fun e => decide (z0.indent ≤ e.indent)) := by
          intro b
          refine dropWhile_append_all ext2 _ _ ?_ ?_
          · intro x hx
            simp only [decide_eq_true_eq]
            have := hext2 x hx
            omega
          · simp only [decide_eq_true_eq, hbase]
            exact hz0
        simp only [visAux, hpop]
        have hz0id : z0.id ≠ pid := hZid z0 (by simp [hZe])
        have hzflag : (pid :: c).contains z0.id = c.contains z0.id := by
          have : (z0.id == pid) = false := by
            simp only [beq_eq_false_iff_ne]
            exact hz0id
          simp only [List.contains_cons, this, Bool.false_or]
        rw [hzflag]
        rcases visAux_cons_id pid c isP Z2 (A.length + 1 + R.length + 1)
            (⟨z0.id, z0.indent, if isP (A.length + 1 + R.length) = true
                then c.contains z0.id else false⟩ ::
              ((visStackAfter c isP A 0 []).dropWhile
                (fun e => decide (rowp.indent ≤ e.indent))).dropWhile
                (fun e => decide (z0.indent ≤ e.indent)))
            (fun r hr => hZid r (by simp [hZe, hr])) with ⟨hZ2, _⟩
        rw [hZ2]
    rw [hZeq]
    -- the parent's own emission survives the filter
    have hpfilter : decide (A.length ∉ List.range' (A.length + 1) R.length) = true := by
      simp only [decide_eq_true_eq]
      rw [mem_range'_iff]
      omega
    split
    · rw [List.filter_append, hfR, hfZ, List.nil_append]
    · rw [List.filter_cons]
      simp only [hpfilter, if_true]
      rw [List.filter_append, hfR, hfZ, List.nil_append]

/-- **C7** — The visible-row projection hides exactly the collapsed
parent's contiguous descendant run: adding a (not yet collapsed) row's id
to the collapse set yields precisely the prior visible sequence with that
row's descendant-run indices removed — the row itself and every row
outside the run keep their visibility — and removing the id again (the
re-expand toggle) restores exactly the prior visible sequence. -/
theorem claim_C7 (rows : List RowData) (c : List Str) (p : Nat) (hp : p < rows.length)
    (hnodup : (rows.map RowData.id).Nodup)
    (hpc : (rows.get ⟨p, hp⟩).id ∉ c) :
    visibleRowIndices rows ((rows.get ⟨p, hp⟩).id :: c)
      = (visibleRowIndices rows c).filter (fun j => decide (j ∉ descRun rows p)) ∧
    visibleRowIndices rows (((rows.get ⟨p, hp⟩).id :: c).erase (rows.get ⟨p, hp⟩).id)
      = visibleRowIndices rows c := by
  refine ⟨?_, by rw [List.erase_cons_head]⟩
  have hgetp : rows.getD p dRow = rows.get ⟨p, hp⟩ := by
    rw [List.getD_eq_getElem?_getD, List.getElem?_eq_getElem hp]
    rfl
  set Ppred : RowData → Bool :=
    fun r => decide ((rows.get ⟨p, hp⟩).indent < r.indent) with hPp
  set A : List RowData := rows.take p with hAd
  set R : List RowData := (rows.drop (p + 1)).takeWhile Ppred with hRd
  set Z : List RowData := (rows.drop (p + 1)).dropWhile Ppred with hZd
  have hlenA : A.length = p := by
    rw [hAd, List.length_take]
    omega
  have hdrop : rows.drop p = rows.get ⟨p, hp⟩ :: rows.drop (p + 1) := by
    rw [← List.getElem_cons_drop rows p hp]
    rfl
  have hdecomp : rows = A ++ rows.get ⟨p, hp⟩ :: (R ++ Z) := by
    rw [hAd, hRd, hZd]
    rw [List.takeWhile_append_dropWhile, ← hdrop, List.take_append_drop]
  have hrun : descRun rows p = List.range' (p + 1) R.length := by
    rw [hRd, hPp]
    simp only [descRun, hgetp]
  have hmapids : rows.map RowData.id
      = A.map RowData.id ++ (rows.get ⟨p, hp⟩).id :: (R ++ Z).map RowData.id := by
    conv_lhs => rw [hdecomp]
    simp
  have hnd2 : ((rows.get ⟨p, hp⟩).id ::
      (A.map RowData.id ++ (R ++ Z).map RowData.id)).Nodup := by
    rw [← List.nodup_middle, ← hmapids]
    exact hnodup
  have hpidnot := (List.nodup_cons.mp hnd2).1
  have hAid : ∀ r ∈ A, r.id ≠ (rows.get ⟨p, hp⟩).id := by
    intro r hr he
    exact hpidnot (List.mem_append_left _ (List.mem_map.mpr ⟨r, hr, he⟩))
  have hRZid : ∀ r ∈ R ++ Z, r.id ≠ (rows.get ⟨p, hp⟩).id := by
    intro r hr he
    exact hpidnot (List.mem_append_right _ (List.mem_map.mpr ⟨r, hr, he⟩))
  have hRind : ∀ r ∈ R, (rows.get ⟨p, hp⟩).indent < r.indent := by
    intro r hr
    rw [hRd] at hr
    have := List.mem_takeWhile_imp hr
    rw [hPp] at this
    simpa using this
  have hZhead : ∀ z0 zs, Z = z0 :: zs → z0.indent ≤ (rows.get ⟨p, hp⟩).indent := by
    intro z0 zs hz
    rw [hZd] at hz
    have := dropWhile_head_not Ppred (rows.drop (p + 1)) z0 zs hz
    rw [hPp] at this
    simp only [decide_eq_false_iff_not, not_lt] at this
    exact this
  have hcpid : c.contains (rows.get ⟨p, hp⟩).id = false := by
    simpa using hpc
  have hparR : R ≠ [] →
      (computeHasChildren (A ++ rows.get ⟨p, hp⟩ :: (R ++ Z))).contains A.length
        = true := by
    intro hne
    rw [← hdecomp, hlenA]
    rcases hRe : R with _ | ⟨r1, R2⟩
    · exact absurd hRe hne
    · rw [hRd] at hRe
      rcases takeWhile_head Ppred (rows.drop (p + 1)) r1 R2 hRe with ⟨hhead, hpr⟩
      have hdne : rows.drop (p + 1) ≠ [] := by
        intro hnil
        rw [hnil] at hhead
        exact Option.noConfusion hhead
      have hp1 : p + 1 < rows.length := by
        have := List.length_drop (p + 1) rows
        have hpos : 0 < (rows.drop (p + 1)).length := List.length_pos.mpr hdne
        omega
      have hget1 : rows.getD (p + 1) dRow = r1 := by
        rw [List.getD_eq_getElem?_getD]
        rw [show rows[p + 1]? = (rows.drop (p + 1))[0]? by
          rw [List.getElem?_drop]]
        rw [← List.head?_eq_getElem?, hhead]
        rfl
      have hlt : (rows.getD p dRow).indent < (rows.getD (p + 1) dRow).indent := by
        rw [hgetp, hget1]
        rw [hPp] at hpr
        simpa using hpr
      have hmem := parent_mem_hasChildren rows p hp1 hlt
      simpa using hmem
  simp only [visibleRowIndices]
  rw [hrun]
  rw [show List.range' (p + 1) R.length = List.range' (A.length + 1) R.length by
    rw [hlenA]]
  generalize hgen : rows.get ⟨p, hp⟩ = rowp at hdecomp hAid hRZid hRind hZhead hcpid hparR ⊢
  conv_lhs => rw [hdecomp]
  conv_rhs => rw [hdecomp]
  exact collapse_core c rowp.id _ rowp.indent A rowp R Z rfl rfl
    hAid hRZid hRind hZhead hcpid hparR

/-- Witness for `claim_C7`: collapsing the root of the sample three-row
chain hides exactly rows 1 and 2. -/
theorem claim_C7_witness :
    visibleRowIndices (materialize sampleIndentState.heap sampleIndentState.data)
        (((materialize sampleIndentState.heap sampleIndentState.data).get
            ⟨0, by decide⟩).id :: [])
      = (visibleRowIndices (materialize sampleIndentState.heap sampleIndentState.data)
            []).filter
          (fun j => decide (j ∉ descRun
            (materialize sampleIndentState.heap sampleIndentState.data) 0)) :=
  (claim_C7 (materialize sampleIndentState.heap sampleIndentState.data) [] 0 (by decide)
    (by decide) (by decide)).1

/-! ### Calendar arithmetic lemmas (for C9) -/

/-- Month lengths never exceed 31. -/
theorem daysInMonth_le (y m : Nat) : daysInMonth y m ≤ 31 := by
  unfold daysInMonth
  split_ifs <;> omega

/-- Year-of-era recovery: the correction formula inside `civilFromDays`
returns the year-of-era on valid day-of-era decompositions. -/
theorem yoe_recover (yoe doy : Nat) (h1 : yoe ≤ 399) (h2 : doy ≤ 365)
    (h3 : doy = 365 → (yoe + 1) % 4 = 0 ∧ ((yoe + 1) % 100 ≠ 0 ∨ yoe = 399)) :
    ((365 * yoe + yoe / 4 - yoe / 100 + doy) - (365 * yoe + yoe / 4 - yoe / 100 + doy) / 1460
      + (365 * yoe + yoe / 4 - yoe / 100 + doy) / 36524
      - (365 * yoe + yoe / 4 - yoe / 100 + doy) / 146096) / 365 = yoe := by
  set D := 365 * yoe + yoe / 4 - yoe / 100 + doy with hD
  have hq25 : 25 * (yoe / 100) ≤ yoe / 4 := by omega
  by_cases h365 : doy = 365
  · obtain ⟨hl4, hl100⟩ := h3 h365
    rcases hl100 with hl100 | h399
    · have hs : yoe ≤ 398 := by omega
      have hs2 : yoe % 100 ≤ 98 := by omega
      have hb1 : D < 146096 := by omega
      have k3 : D / 146096 = 0 := by omega
      have hlow : 36524 * (yoe / 100) ≤ D := by omega
      have hhigh : D < 36524 * (yoe / 100) + 36524 := by omega
      have k2 : D / 36524 = yoe / 100 := by omega
      have hl1 : 1460 * (yoe / 4 + 1) ≤ D := by omega
      have hl2 : D < 1460 * (yoe / 4 + 2) := by omega
      have k1 : D / 1460 = yoe / 4 + 1 := by omega
      omega
    · have hDv : D = 146096 := by omega
      omega
  · have hdoy : doy ≤ 364 := by omega
    have hD1 : 1460 * (yoe / 4) ≤ D := by omega
    have hD2 : D < 1460 * (yoe / 4 + doy + 1) := by omega
    have k1a : yoe / 4 ≤ D / 1460 := by omega
    have k1b : D / 1460 ≤ yoe / 4 + doy := by omega
    have hb1 : D < 146096 := by omega
    have k3 : D / 146096 = 0 := by omega
    have hlow : 36524 * (yoe / 100) ≤ D := by omega
    have hhigh : D < 36524 * (yoe / 100) + 36524 := by omega
    have k2 : D / 36524 = yoe / 100 := by omega
    omega

/-- `civilFromDays` inverts the era/year-of-era/month-offset/day decomposition
used by `daysFromCivil`, for in-range components. -/
theorem civilFromDays_spec (era yoe mp dm1 : Nat) (h1 : yoe ≤ 399) (h2 : mp ≤ 11)
    (h3 : dm1 < if mp = 1 ∨ mp = 3 ∨ mp = 6 ∨ mp = 8 then 30
          else if mp = 11 then
            (if (yoe + 1) % 4 = 0 ∧ ((yoe + 1) % 100 ≠ 0 ∨ yoe = 399) then 29 else 28)
          else 31) :
    civilFromDays (era * 146097 + (yoe * 365 + yoe / 4 - yoe / 100 + ((153 * mp + 2) / 5 + dm1)))
      = (if 10 ≤ mp then yoe + era * 400 + 1 else yoe + era * 400,
         if mp < 10 then mp + 3 else mp - 9, dm1 + 1) := by
  set z := era * 146097 + (yoe * 365 + yoe / 4 - yoe / 100 + ((153 * mp + 2) / 5 + dm1)) with hz
  unfold civilFromDays
  dsimp only
  split_ifs at h3 with w1 w2 w3 <;>
  · have hdiv : z / 146097 = era := by omega
    rw [hdiv]
    have hdoyb : (153 * mp + 2) / 5 + dm1 ≤ 365 := by omega
    have hleap : (153 * mp + 2) / 5 + dm1 = 365 →
        (yoe + 1) % 4 = 0 ∧ ((yoe + 1) % 100 ≠ 0 ∨ yoe = 399) := by omega
    have hmod : z % 146097 = 365 * yoe + yoe / 4 - yoe / 100 + ((153 * mp + 2) / 5 + dm1) := by
      omega
    rw [hmod, yoe_recover yoe ((153 * mp + 2) / 5 + dm1) h1 hdoyb hleap]
    have hdoy2 : 365 * yoe + yoe / 4 - yoe / 100 + ((153 * mp + 2) / 5 + dm1)
        - (365 * yoe + yoe / 4 - yoe / 100) = (153 * mp + 2) / 5 + dm1 := by omega
    rw [hdoy2]
    have hmp2 : (5 * ((153 * mp + 2) / 5 + dm1) + 2) / 153 = mp := by
      interval_cases mp <;> omega
    rw [hmp2]
    have hd1 : (153 * mp + 2) / 5 + dm1 - (153 * mp + 2) / 5 + 1 = dm1 + 1 := by omega
    rw [hd1]
    rcases Nat.lt_or_ge mp 10 with hh | hh
    · simp only [if_pos hh, if_neg (show ¬ mp + 3 ≤ 2 by omega),
        if_neg (show ¬ 10 ≤ mp by omega)]
    · simp only [if_neg (show ¬ mp < 10 by omega), if_pos (show mp - 9 ≤ 2 by omega),
        if_pos hh]
/-- The civil-date day count is invertible on valid calendar dates. -/
theorem civil_roundtrip (y m d : Nat) (hy : 1 ≤ y) (hm1 : 1 ≤ m) (hm2 : m ≤ 12)
    (hd1 : 1 ≤ d) (hd2 : d ≤ daysInMonth y m) :
    civilFromDays (daysFromCivil y m d) = (y, m, d) := by
  unfold daysInMonth at hd2
  unfold daysFromCivil
  dsimp only
  have hmain := civilFromDays_spec ((if m ≤ 2 then y - 1 else y) / 400)
      ((if m ≤ 2 then y - 1 else y) % 400) (if 2 < m then m - 3 else m + 9) (d - 1)
      (by split_ifs <;> omega) (by split_ifs <;> omega)
      (by split_ifs at hd2 ⊢ <;> omega)
  rw [hmain]
  split_ifs at hd2 ⊢ <;> simp only [Prod.mk.injEq] <;> omega
/-- `new Date(y, m-1, d)` with a four-digit year and a valid month index is
in TimeClip range and denotes exactly the requested civil day. -/
theorem mkDate_valid (y m d : Nat) (hy1 : 100 ≤ y) (hy2 : y ≤ 9999) (hm1 : 1 ≤ m)
    (hm2 : m ≤ 12) (hd1 : 1 ≤ d) (hd2 : d ≤ 31) :
    mkDate y ((m : Int) - 1) d 0 0 0 = some ⟨daysFromCivil y m d, 0⟩ := by
  unfold mkDate
  dsimp only
  rw [if_neg (show ¬ y ≤ 99 by omega), if_neg (show ¬ ((m : Int) - 1) < 0 by omega),
    if_neg (show ¬ ((m : Int) - 1) < 0 by omega),
    show ((m : Int) - 1).toNat = m - 1 by omega,
    show (m - 1) / 12 = 0 by omega, show (m - 1) % 12 = m - 1 by omega,
    show m - 1 + 1 = m by omega, Nat.add_zero y]
  have hrel : daysFromCivil y m 1 + d - 1 = daysFromCivil y m d := by
    unfold daysFromCivil
    dsimp only
    split_ifs <;> omega
  have hub : daysFromCivil y m d ≤ 3700000 := by
    unfold daysFromCivil
    dsimp only
    split_ifs <;> omega
  have htot : (daysFromCivil y m 1 + d) * 86400 + (0 * 3600 + 0 * 60 + 0) - 86400
      = (daysFromCivil y m d) * 86400 := by omega
  rw [htot, Nat.mul_div_cancel _ (by omega : 0 < 86400),
    Nat.mul_mod_left]
  rw [if_pos]
  omega

/-! ### String-scanning lemmas (for C9) -/

/-- A string whose first character (if any) is not a digit. -/
def NotDigitHead (r : Str) : Prop := ∀ c, r.head? = some c → isDigitC c = false

theorem notDigitHead_nil : NotDigitHead [] := by
  intro c hc
  simp at hc

theorem notDigitHead_cons (x : Char) (xs : Str) (hx : isDigitC x = false) :
    NotDigitHead (x :: xs) := by
  intro c hc
  simp only [List.head?_cons, Option.some.injEq] at hc
  exact hc ▸ hx

/-- Digit characters are not whitespace. -/
theorem digit_not_ws (c : Char) (h : isDigitC c = true) : isWSC c = false := by
  by_contra hne
  have hw : isWSC c = true := by
    revert hne
    cases isWSC c <;> simp
  simp only [isWSC, Bool.or_eq_true, beq_iff_eq] at hw
  simp only [isDigitC, Bool.and_eq_true, decide_eq_true_eq] at h
  rcases hw with ((((rfl | rfl) | rfl) | rfl) | rfl) | rfl <;> revert h <;> decide

/-- A digit character differs from any non-digit character. -/
theorem digit_ne_char (c x : Char) (h : isDigitC c = true) (hx : isDigitC x = false) :
    c ≠ x := by
  rintro rfl
  rw [h] at hx
  exact Bool.noConfusion hx

theorem takeWhile_of_all (p : Char → Bool) (ds rest : Str) (hds : ∀ c ∈ ds, p c = true)
    (hrest : ∀ c, rest.head? = some c → p c = false) :
    (ds ++ rest).takeWhile p = ds := by
  induction ds with
  | nil =>
    cases rest with
    | nil => rfl
    | cons c t => simp [List.takeWhile_cons, hrest c rfl]
  | cons d t ih =>
    simp only [List.cons_append, List.takeWhile_cons,
      hds d (List.mem_cons_self d t), if_true]
    rw [ih fun c hc => hds c (List.mem_cons_of_mem d hc)]

theorem dropWhile_of_all (p : Char → Bool) (ds rest : Str) (hds : ∀ c ∈ ds, p c = true)
    (hrest : ∀ c, rest.head? = some c → p c = false) :
    (ds ++ rest).dropWhile p = rest := by
  induction ds with
  | nil =>
    cases rest with
    | nil => rfl
    | cons c t => simp [List.dropWhile_cons, hrest c rfl]
  | cons d t ih =>
    simp only [List.cons_append, List.dropWhile_cons,
      hds d (List.mem_cons_self d t), if_true]
    exact ih fun c hc => hds c (List.mem_cons_of_mem d hc)

/-- Maximal-munch scan of a digit block followed by a non-digit boundary. -/
theorem span_of_all (p : Char → Bool) (ds rest : Str) (hds : ∀ c ∈ ds, p c = true)
    (hrest : ∀ c, rest.head? = some c → p c = false) :
    (ds ++ rest).span p = (ds, rest) := by
  rw [List.span_eq_take_drop, takeWhile_of_all p ds rest hds hrest,
    dropWhile_of_all p ds rest hds hrest]

/-- Scan of an all-digit string. -/
theorem span_all (p : Char → Bool) (ds : Str) (hds : ∀ c ∈ ds, p c = true) :
    ds.span p = (ds, []) := by
  have := span_of_all p ds [] hds (by intro c hc; simp at hc)
  simpa using this

/-- `trim` is the identity when the ends are not whitespace. -/
theorem jsTrim_eq_self (s : Str) (hh : ∀ c, s.head? = some c → isWSC c = false)
    (hl : ∀ c, s.getLast? = some c → isWSC c = false) : jsTrim s = s := by
  unfold jsTrim
  have h1 : s.dropWhile isWSC = s := by
    cases s with
    | nil => rfl
    | cons c t => simp [List.dropWhile_cons, hh c rfl]
  rw [h1]
  have h2 : s.reverse.dropWhile isWSC = s.reverse := by
    cases hr : s.reverse with
    | nil => rfl
    | cons c t =>
      have hc : s.getLast? = some c := by
        rw [← List.head?_reverse, hr, List.head?_cons]
      simp [List.dropWhile_cons, hl c hc]
  rw [h2, List.reverse_reverse]


/-- `digitChar` produces digit characters on `n ≤ 9`. -/
theorem digitChar_digit (n : Nat) (h : n ≤ 9) : isDigitC (digitChar n) = true := by
  interval_cases n <;> decide

/-- Decimal renderings are all-digit strings. -/
theorem natStrAux_digits (fuel : Nat) : ∀ n, DigitStr (natStrAux fuel n) := by
  induction fuel with
  | zero =>
    intro n c hc
    simp [natStrAux] at hc
  | succ f ih =>
    intro n c hc
    unfold natStrAux at hc
    by_cases hn : n < 10
    · rw [if_pos hn] at hc
      simp only [List.mem_singleton] at hc
      exact hc ▸ digitChar_digit n (by omega)
    · rw [if_neg hn] at hc
      rcases List.mem_append.mp hc with hc | hc
      · exact ih (n / 10) c hc
      · simp only [List.mem_singleton] at hc
        exact hc ▸ digitChar_digit (n % 10) (by omega)

theorem natStr_digits (n : Nat) : DigitStr (natStr n) := natStrAux_digits (n + 1) n

theorem padStart2_digits (s : Str) (h : DigitStr s) : DigitStr (padStart2 s) := by
  intro c hc
  rcases List.mem_append.mp hc with hc | hc
  · rw [List.eq_of_mem_replicate hc]
    decide
  · exact h c hc


/-- `parseISOShape` on a rendered date-only ISO string. -/
theorem parseISOShape_render (sy sm sd : Str) (hsy : DigitStr sy) (hsyl : sy.length = 4)
    (hsm : DigitStr sm) (hsml : sm.length = 2) (hsd : DigitStr sd) (hsdl : sd.length = 2) :
    parseISOShape (sy ++ '-' :: sm ++ '-' :: sd)
      = some (digitsToNat sy, digitsToNat sm, digitsToNat sd, 0, 0, 0) := by
  have hassoc : sy ++ '-' :: sm ++ '-' :: sd = sy ++ '-' :: (sm ++ '-' :: sd) := by
    simp
  rw [hassoc]
  unfold parseISOShape
  dsimp only
  rw [span_of_all isDigitC sy ('-' :: (sm ++ '-' :: sd)) hsy
    (notDigitHead_cons '-' _ (by decide))]
  dsimp only
  rw [if_pos hsyl, if_pos rfl]
  rw [span_of_all isDigitC sm ('-' :: sd) hsm (notDigitHead_cons '-' _ (by decide))]
  dsimp only
  rw [if_pos hsml, if_pos rfl]
  rw [span_all isDigitC sd hsd]
  dsimp only
  rw [if_pos hsdl]


/-- `parseISOShape` rejects inputs whose leading digit block is not
exactly four digits long. -/
theorem parseISOShape_fail (a rest : Str) (ha : DigitStr a) (hrest : NotDigitHead rest)
    (hlen : a.length ≠ 4) : parseISOShape (a ++ rest) = none := by
  unfold parseISOShape
  dsimp only
  rw [span_of_all isDigitC a rest ha hrest]
  dsimp only
  rw [if_neg hlen]

/-- `parseTwoSep` on a rendered date-only two-separator string. -/
theorem parseTwoSep_render (sep : Char) (hsep : isDigitC sep = false) (a b sy : Str)
    (ha : DigitStr a) (hal : 1 ≤ a.length ∧ a.length ≤ 2)
    (hb : DigitStr b) (hbl : 1 ≤ b.length ∧ b.length ≤ 2)
    (hsy : DigitStr sy) (hsyl : sy.length = 4) :
    parseTwoSep sep (a ++ sep :: (b ++ sep :: sy))
      = some (digitsToNat a, digitsToNat b, digitsToNat sy, 0, 0) := by
  unfold parseTwoSep
  dsimp only
  rw [span_of_all isDigitC a (sep :: (b ++ sep :: sy)) ha (notDigitHead_cons sep _ hsep)]
  dsimp only
  rw [if_pos hal, if_pos rfl]
  rw [span_of_all isDigitC b (sep :: sy) hb (notDigitHead_cons sep _ hsep)]
  dsimp only
  rw [if_pos hbl, if_pos rfl]
  rw [span_all isDigitC sy hsy]
  dsimp only
  rw [if_pos hsyl]
  rfl

/-- `parseTwoSep` rejects inputs whose first separator is a different
character. -/
theorem parseTwoSep_fail_sep (sep : Char) (a : Str) (x : Char) (rest : Str)
    (ha : DigitStr a) (hx : isDigitC x = false)
    (hal : 1 ≤ a.length ∧ a.length ≤ 2) (hne : x ≠ sep) :
    parseTwoSep sep (a ++ x :: rest) = none := by
  unfold parseTwoSep
  dsimp only
  rw [span_of_all isDigitC a (x :: rest) ha (notDigitHead_cons x _ hx)]
  dsimp only
  rw [if_pos hal, if_neg hne]


theorem digitStr_head (A : Str) (hA : DigitStr A) :
    ∀ c, A.head? = some c → isDigitC c = true := by
  intro c hc
  cases A with
  | nil => simp at hc
  | cons a t =>
    simp only [List.head?_cons, Option.some.injEq] at hc
    exact hc ▸ hA a (List.mem_cons_self a t)

theorem digitStr_last (A : Str) (hA : DigitStr A) :
    ∀ c, A.getLast? = some c → isDigitC c = true := by
  intro c hc
  exact hA c (List.mem_of_mem_getLast? (by simp [hc]))

/-- `trim` leaves a three-block render unchanged: it starts and ends with
a digit. -/
theorem jsTrim_render (A B C : Str) (x y : Char) (hA : DigitStr A) (hAne : A ≠ [])
    (hC : DigitStr C) (hCne : C ≠ []) :
    jsTrim (A ++ x :: B ++ y :: C) = A ++ x :: B ++ y :: C := by
  apply jsTrim_eq_self
  · intro c hc
    rw [List.head?_append_of_ne_nil (A ++ x :: B) (by simp [hAne]),
      List.head?_append_of_ne_nil A hAne] at hc
    exact digit_not_ws c (digitStr_head A hA c hc)
  · intro c hc
    rw [List.getLast?_append] at hc
    obtain ⟨c0, C', rfl⟩ := List.exists_cons_of_ne_nil hCne
    rw [show (y :: c0 :: C').getLast? = (c0 :: C').getLast? from List.getLast?_cons_cons] at hc
    obtain ⟨v, hv⟩ : ∃ v, (c0 :: C').getLast? = some v := by
      cases hgl : (c0 :: C').getLast? with
      | none => exact absurd (List.getLast?_eq_none_iff.mp hgl) (List.cons_ne_nil c0 C')
      | some v => exact ⟨v, rfl⟩
    rw [hv, show (Option.some v).or ((A ++ x :: B).getLast?) = some v from rfl] at hc
    exact digit_not_ws c (digitStr_last (c0 :: C') hC c (by rw [hv, hc]))

/-- A three-block render is nonempty. -/
theorem render_ne_nil (A B C : Str) (x y : Char) : A ++ x :: B ++ y :: C ≠ [] := by
  intro h
  rcases List.append_eq_nil.mp h with ⟨-, h2⟩
  exact List.cons_ne_nil y C h2


/-- `parseDateFlexible` on a rendered ISO-form string. -/
theorem parseFlex_iso (sy sm sd : Str) (hint : Option Str)
    (hsy : DigitStr sy) (hsyl : sy.length = 4) (hsm : DigitStr sm) (hsml : sm.length = 2)
    (hsd : DigitStr sd) (hsdl : sd.length = 2) :
    parseDateFlexible (sy ++ '-' :: sm ++ '-' :: sd) hint
      = mkDate (digitsToNat sy) ((digitsToNat sm : Int) - 1) (digitsToNat sd) 0 0 0 := by
  have hAne : sy ≠ [] := by
    intro h
    rw [h] at hsyl
    simp at hsyl
  have hCne : sd ≠ [] := by
    intro h
    rw [h] at hsdl
    simp at hsdl
  unfold parseDateFlexible
  rw [if_neg (render_ne_nil sy sm sd '-' '-')]
  dsimp only
  rw [jsTrim_render sy sm sd '-' '-' hsy hAne hsd hCne,
    if_neg (render_ne_nil sy sm sd '-' '-'),
    parseISOShape_render sy sm sd hsy hsyl hsm hsml hsd hsdl]

/-- `parseDateFlexible` on a rendered dot-form string. -/
theorem parseFlex_dot (sy sm sd : Str) (hint : Option Str)
    (hsy : DigitStr sy) (hsyl : sy.length = 4)
    (hsm : DigitStr sm) (hsml : 1 ≤ sm.length ∧ sm.length ≤ 2)
    (hsd : DigitStr sd) (hsdl : 1 ≤ sd.length ∧ sd.length ≤ 2) :
    parseDateFlexible (sd ++ '.' :: sm ++ '.' :: sy) hint
      = mkDate (digitsToNat sy) ((digitsToNat sm : Int) - 1) (digitsToNat sd) 0 0 0 := by
  have hAne : sd ≠ [] := by
    intro h
    rw [h] at hsdl
    simp at hsdl
  have hCne : sy ≠ [] := by
    intro h
    rw [h] at hsyl
    simp at hsyl
  have hassoc : sd ++ '.' :: sm ++ '.' :: sy = sd ++ ('.' :: (sm ++ '.' :: sy)) := by simp
  unfold parseDateFlexible
  rw [if_neg (render_ne_nil sd sm sy '.' '.')]
  dsimp only
  rw [jsTrim_render sd sm sy '.' '.' hsd hAne hsy hCne,
    if_neg (render_ne_nil sd sm sy '.' '.'), hassoc,
    parseISOShape_fail sd ('.' :: (sm ++ '.' :: sy)) hsd
      (notDigitHead_cons '.' _ (by decide)) (by omega)]
  dsimp only
  rw [parseTwoSep_render '.' (by decide) sd sm sy hsd hsdl hsm hsml hsy hsyl]

/-- `parseDateFlexible` on a rendered day-first slash-form string. -/
theorem parseFlex_slash (sa sb sy : Str) (hint : Option Str)
    (hsy : DigitStr sy) (hsyl : sy.length = 4)
    (hsa : DigitStr sa) (hsal : 1 ≤ sa.length ∧ sa.length ≤ 2)
    (hsb : DigitStr sb) (hsbl : 1 ≤ sb.length ∧ sb.length ≤ 2) :
    parseDateFlexible (sa ++ '/' :: sb ++ '/' :: sy) hint
      = mkDate (digitsToNat sy)
          (((slashDayMonth (digitsToNat sa) (digitsToNat sb) hint).2 : Int) - 1)
          (slashDayMonth (digitsToNat sa) (digitsToNat sb) hint).1 0 0 0 := by
  have hAne : sa ≠ [] := by
    intro h
    rw [h] at hsal
    simp at hsal
  have hCne : sy ≠ [] := by
    intro h
    rw [h] at hsyl
    simp at hsyl
  have hassoc : sa ++ '/' :: sb ++ '/' :: sy = sa ++ ('/' :: (sb ++ '/' :: sy)) := by simp
  unfold parseDateFlexible
  rw [if_neg (render_ne_nil sa sb sy '/' '/')]
  dsimp only
  rw [jsTrim_render sa sb sy '/' '/' hsa hAne hsy hCne,
    if_neg (render_ne_nil sa sb sy '/' '/'), hassoc,
    parseISOShape_fail sa ('/' :: (sb ++ '/' :: sy)) hsa
      (notDigitHead_cons '/' _ (by decide)) (by omega)]
  dsimp only
  rw [parseTwoSep_fail_sep '.' sa '/' (sb ++ '/' :: sy) hsa (by decide) hsal (by decide)]
  dsimp only
  rw [parseTwoSep_render '/' (by decide) sa sb sy hsa hsal hsb hsbl hsy hsyl]


/-- With the day-first hint `dd/mm/yyyy`, the slash components resolve to
`(day, month)` whenever the month component is plausible. -/
theorem slashDayMonth_dmy (d m : Nat) (hm : m ≤ 12) :
    slashDayMonth d m (some (formPattern .slashDMY)) = (d, m) := by
  unfold slashDayMonth
  dsimp only
  split_ifs with h1 h2 h3
  · rfl
  · exact absurd h2.1 (by omega)
  · rfl
  · exact absurd (Or.inl (by decide)) h3

/-- With the month-first hint `mm/dd/yyyy`, the slash components resolve to
`(day, month)` whenever the month component is plausible. -/
theorem slashDayMonth_mdy (d m : Nat) (hm : m ≤ 12) :
    slashDayMonth m d (some (formPattern .slashMDY)) = (d, m) := by
  unfold slashDayMonth
  dsimp only
  split_ifs with h1 h2 h3
  · exact absurd h1.1 (by omega)
  · rfl
  · rcases h3 with h3 | h3
    · exact absurd h3 (by decide)
    · exact absurd h3 (by decide)
  · rfl

/-- One step of `replace` on a cons cell. -/
theorem replaceFirst_cons (c : Char) (rest pat rep : Str) :
    replaceFirst (c :: rest) pat rep =
      if pat.isPrefixOf (c :: rest) then rep ++ (c :: rest).drop pat.length
      else c :: replaceFirst rest pat rep := rfl

/-- `replace` walks past characters that cannot start the pattern. -/
theorem replaceFirst_skip (l s pt rep : Str) (p0 : Char) (h : ∀ c ∈ l, c ≠ p0) :
    replaceFirst (l ++ s) (p0 :: pt) rep = l ++ replaceFirst s (p0 :: pt) rep := by
  induction l with
  | nil => rfl
  | cons c t ih =>
    rw [List.cons_append, replaceFirst_cons]
    have hpre : (p0 :: pt).isPrefixOf (c :: (t ++ s)) = false := by
      by_contra hne
      have hp : (p0 :: pt).isPrefixOf (c :: (t ++ s)) = true := by
        revert hne
        cases (p0 :: pt).isPrefixOf (c :: (t ++ s)) <;> simp
      have := List.isPrefixOf_iff_prefix.mp hp
      have hc0 : p0 = c := by
        rcases this with ⟨u, hu⟩
        exact (List.cons.injEq _ _ _ _).mp (by simpa using hu) |>.1
      exact h c (List.mem_cons_self c t) hc0.symm
    rw [hpre]
    simp only [Bool.false_eq_true, if_false]
    rw [ih fun c0 hc0 => h c0 (List.mem_cons_of_mem c hc0), List.cons_append]

/-- `replace` substitutes the pattern occurrence at the head. -/
theorem replaceFirst_exact (s pt rep : Str) (p0 : Char) :
    replaceFirst ((p0 :: pt) ++ s) (p0 :: pt) rep = rep ++ s := by
  rw [List.cons_append, replaceFirst_cons]
  have hpre : (p0 :: pt).isPrefixOf (p0 :: (pt ++ s)) = true := by
    apply List.isPrefixOf_iff_prefix.mpr
    rw [show p0 :: (pt ++ s) = (p0 :: pt) ++ s from rfl]
    exact List.prefix_append (p0 :: pt) s
  rw [hpre]
  simp only [if_true]
  rw [show p0 :: (pt ++ s) = (p0 :: pt) ++ s from rfl, List.drop_left]


/-- The formatter renders the ISO pattern canonically. -/
theorem format_iso (dt : JSDate) (y m d : Nat)
    (hcal : calTriple dt = (y, m, d)) :
    formatDateByPattern (some dt) (formPattern .iso) = formCanonical .iso y m d := by
  simp only [calTriple, Prod.mk.injEq] at hcal
  obtain ⟨hY, hM, hD⟩ := hcal
  unfold formatDateByPattern
  dsimp only
  rw [hY, hM, hD]
  unfold formPattern formCanonical patY patM patD
  dsimp only
  have hryD : DigitStr (natStr y) := natStr_digits y
  have hrmD : DigitStr (padStart2 (natStr m)) := padStart2_digits _ (natStr_digits m)
  rw [show ('y' :: 'y' :: 'y' :: 'y' :: '-' :: 'm' :: 'm' :: '-' :: 'd' :: 'd' ::[] : Str)
      = ('y' :: 'y' :: 'y' :: 'y' ::[]) ++ ('-' :: 'm' :: 'm' :: '-' :: 'd' :: 'd' ::[]) from rfl]
  rw [replaceFirst_exact]
  rw [replaceFirst_skip (natStr y) ('-' :: 'm' :: 'm' :: '-' :: 'd' :: 'd' ::[]) ('m' ::[])
      (padStart2 (natStr m)) 'm'
      (fun c hc => digit_ne_char c 'm' (hryD c hc) (by decide))]
  rw [show ('-' :: 'm' :: 'm' :: '-' :: 'd' :: 'd' ::[] : Str)
      = ('-' ::[]) ++ (('m' :: 'm' ::[]) ++ ('-' :: 'd' :: 'd' ::[])) from rfl]
  rw [replaceFirst_skip ('-' ::[]) _ _ _ 'm' (by
    intro c hc
    simp only [List.mem_singleton] at hc
    rw [hc]
    decide)]
  rw [replaceFirst_exact]
  rw [replaceFirst_skip (natStr y) _ _ _ 'd'
      (fun c hc => digit_ne_char c 'd' (hryD c hc) (by decide))]
  rw [replaceFirst_skip ('-' ::[]) _ _ _ 'd' (by
    intro c hc
    simp only [List.mem_singleton] at hc
    rw [hc]
    decide)]
  rw [replaceFirst_skip (padStart2 (natStr m)) _ _ _ 'd'
      (fun c hc => digit_ne_char c 'd' (hrmD c hc) (by decide))]
  rw [show ('-' :: 'd' :: 'd' ::[] : Str) = ('-' ::[]) ++ (('d' :: 'd' ::[]) ++ ([] : Str)) from by
    simp]
  rw [replaceFirst_skip ('-' ::[]) _ _ _ 'd' (by
    intro c hc
    simp only [List.mem_singleton] at hc
    rw [hc]
    decide)]
  rw [replaceFirst_exact]
  simp


/-- The formatter renders the dot pattern canonically. -/
theorem format_dot (dt : JSDate) (y m d : Nat)
    (hcal : calTriple dt = (y, m, d)) :
    formatDateByPattern (some dt) (formPattern .dot) = formCanonical .dot y m d := by
  simp only [calTriple, Prod.mk.injEq] at hcal
  obtain ⟨hY, hM, hD⟩ := hcal
  unfold formatDateByPattern
  dsimp only
  rw [hY, hM, hD]
  unfold formPattern formCanonical patY patM patD
  dsimp only
  have hrmD : DigitStr (padStart2 (natStr m)) := padStart2_digits _ (natStr_digits m)
  rw [show ('d' :: 'd' :: '.' :: 'm' :: 'm' :: '.' :: 'y' :: 'y' :: 'y' :: 'y' ::[] : Str)
      = ('d' :: 'd' :: '.' :: 'm' :: 'm' :: '.' ::[]) ++ (('y' :: 'y' :: 'y' :: 'y' ::[]) ++ ([] : Str))
      from by simp]
  rw [replaceFirst_skip ('d' :: 'd' :: '.' :: 'm' :: 'm' :: '.' ::[]) _ _ _ 'y' (by decide)]
  rw [replaceFirst_exact]
  rw [show ('d' :: 'd' :: '.' :: 'm' :: 'm' :: '.' ::[] : Str) ++ (natStr y ++ [])
      = ('d' :: 'd' :: '.' ::[]) ++ (('m' :: 'm' ::[]) ++ ('.' ::(natStr y ++ []))) from by simp]
  rw [replaceFirst_skip ('d' :: 'd' :: '.' ::[]) _ _ _ 'm' (by decide)]
  rw [replaceFirst_exact]
  rw [show ('d' :: 'd' :: '.' ::[] : Str)
        ++ (padStart2 (natStr m) ++ ('.' ::(natStr y ++ [])))
      = ('d' :: 'd' ::[]) ++ ('.' ::(padStart2 (natStr m) ++ ('.' ::(natStr y ++ []))))
      from by simp]
  rw [replaceFirst_exact]
  simp

/-- The formatter renders the day-first slash pattern canonically. -/
theorem format_slashDMY (dt : JSDate) (y m d : Nat)
    (hcal : calTriple dt = (y, m, d)) :
    formatDateByPattern (some dt) (formPattern .slashDMY)
      = formCanonical .slashDMY y m d := by
  simp only [calTriple, Prod.mk.injEq] at hcal
  obtain ⟨hY, hM, hD⟩ := hcal
  unfold formatDateByPattern
  dsimp only
  rw [hY, hM, hD]
  unfold formPattern formCanonical patY patM patD
  dsimp only
  rw [show ('d' :: 'd' :: '/' :: 'm' :: 'm' :: '/' :: 'y' :: 'y' :: 'y' :: 'y' ::[] : Str)
      = ('d' :: 'd' :: '/' :: 'm' :: 'm' :: '/' ::[]) ++ (('y' :: 'y' :: 'y' :: 'y' ::[]) ++ ([] : Str))
      from by simp]
  rw [replaceFirst_skip ('d' :: 'd' :: '/' :: 'm' :: 'm' :: '/' ::[]) _ _ _ 'y' (by decide)]
  rw [replaceFirst_exact]
  rw [show ('d' :: 'd' :: '/' :: 'm' :: 'm' :: '/' ::[] : Str) ++ (natStr y ++ [])
      = ('d' :: 'd' :: '/' ::[]) ++ (('m' :: 'm' ::[]) ++ ('/' ::(natStr y ++ []))) from by simp]
  rw [replaceFirst_skip ('d' :: 'd' :: '/' ::[]) _ _ _ 'm' (by decide)]
  rw [replaceFirst_exact]
  rw [show ('d' :: 'd' :: '/' ::[] : Str)
        ++ (padStart2 (natStr m) ++ ('/' ::(natStr y ++ [])))
      = ('d' :: 'd' ::[]) ++ ('/' ::(padStart2 (natStr m) ++ ('/' ::(natStr y ++ []))))
      from by simp]
  rw [replaceFirst_exact]
  simp

/-- The formatter renders the month-first slash pattern canonically. -/
theorem format_slashMDY (dt : JSDate) (y m d : Nat)
    (hcal : calTriple dt = (y, m, d)) :
    formatDateByPattern (some dt) (formPattern .slashMDY)
      = formCanonical .slashMDY y m d := by
  simp only [calTriple, Prod.mk.injEq] at hcal
  obtain ⟨hY, hM, hD⟩ := hcal
  unfold formatDateByPattern
  dsimp only
  rw [hY, hM, hD]
  unfold formPattern formCanonical patY patM patD
  dsimp only
  have hrmD : DigitStr (padStart2 (natStr m)) := padStart2_digits _ (natStr_digits m)
  rw [show ('m' :: 'm' :: '/' :: 'd' :: 'd' :: '/' :: 'y' :: 'y' :: 'y' :: 'y' ::[] : Str)
      = ('m' :: 'm' :: '/' :: 'd' :: 'd' :: '/' ::[]) ++ (('y' :: 'y' :: 'y' :: 'y' ::[]) ++ ([] : Str))
      from by simp]
  rw [replaceFirst_skip ('m' :: 'm' :: '/' :: 'd' :: 'd' :: '/' ::[]) _ _ _ 'y' (by decide)]
  rw [replaceFirst_exact]
  rw [show ('m' :: 'm' :: '/' :: 'd' :: 'd' :: '/' ::[] : Str) ++ (natStr y ++ [])
      = ('m' :: 'm' ::[]) ++ ('/' ::('d' :: 'd' ::('/' ::(natStr y ++ [])))) from by simp]
  rw [replaceFirst_exact]
  rw [replaceFirst_skip (padStart2 (natStr m)) _ _ _ 'd'
      (fun c hc => digit_ne_char c 'd' (hrmD c hc) (by decide))]
  rw [show ('/' ::('d' :: 'd' ::('/' ::(natStr y ++ [])))  : Str)
      = ('/' ::[]) ++ (('d' :: 'd' ::[]) ++ ('/' ::(natStr y ++ []))) from by simp]
  rw [replaceFirst_skip ('/' ::[]) _ _ _ 'd' (by decide)]
  rw [replaceFirst_exact]
  simp


/-- The constructed instant reads back as the requested calendar date. -/
theorem calTriple_daysFromCivil (y m d : Nat) (hy : 1 ≤ y) (hm1 : 1 ≤ m) (hm2 : m ≤ 12)
    (hd1 : 1 ≤ d) (hd2 : d ≤ daysInMonth y m) :
    calTriple ⟨daysFromCivil y m d, 0⟩ = (y, m, d) := by
  unfold calTriple JSDate.getFullYear JSDate.getMonth JSDate.getDate
  dsimp only
  rw [civil_roundtrip y m d hy hm1 hm2 hd1 hd2]
  rw [show m - 1 + 1 = m from by omega]

/-- C9 (corrected): for every accepted date string that denotes a valid
calendar date with a four-digit year `100 ≤ y ≤ 9999` (in ISO, dot, or
slash form, with the form's pattern used both as parse hint and as format
pattern), parsing yields an instant whose calendar triple is exactly the
denoted date, and formatting that instant with the same pattern yields the
canonical string for that date.  (The original claim, quantified over all
accepted strings, fails: four-digit years below 100 hit the JavaScript
two-digit-year rule -- see the counterexample.) -/
theorem claim_C9 (f : DateForm) (y m d : Nat) (sy sm sd : Str)
    (hy1 : 100 ≤ y) (hy2 : y ≤ 9999) (hm1 : 1 ≤ m) (hm2 : m ≤ 12)
    (hd1 : 1 ≤ d) (hd2 : d ≤ daysInMonth y m)
    (hsy : DigitStr sy) (hsyl : sy.length = 4) (hsyv : digitsToNat sy = y)
    (hsm : DigitStr sm) (hsml : compLenOK f sm.length) (hsmv : digitsToNat sm = m)
    (hsd : DigitStr sd) (hsdl : compLenOK f sd.length) (hsdv : digitsToNat sd = d) :
    ∃ dt, parseDateFlexible (formRender f sy sm sd) (some (formPattern f)) = some dt ∧
      calTriple dt = (y, m, d) ∧
      formatDateByPattern (some dt) (formPattern f) = formCanonical f y m d := by
  have hd31 : d ≤ 31 := le_trans hd2 (daysInMonth_le y m)
  have hmk : mkDate y ((m : Int) - 1) d 0 0 0 = some ⟨daysFromCivil y m d, 0⟩ :=
    mkDate_valid y m d hy1 hy2 hm1 hm2 hd1 hd31
  have hcal : calTriple ⟨daysFromCivil y m d, 0⟩ = (y, m, d) :=
    calTriple_daysFromCivil y m d (by omega) hm1 hm2 hd1 hd2
  refine ⟨⟨daysFromCivil y m d, 0⟩, ?_, hcal, ?_⟩
  · cases f with
    | iso =>
      rw [show formRender .iso sy sm sd = sy ++ '-' :: sm ++ '-' :: sd from rfl]
      rw [parseFlex_iso sy sm sd _ hsy hsyl hsm hsml hsd hsdl, hsyv, hsmv, hsdv, hmk]
    | dot =>
      rw [show formRender .dot sy sm sd = sd ++ '.' :: sm ++ '.' :: sy from rfl]
      rw [parseFlex_dot sy sm sd _ hsy hsyl hsm hsml hsd hsdl, hsyv, hsmv, hsdv, hmk]
    | slashDMY =>
      rw [show formRender .slashDMY sy sm sd = sd ++ '/' :: sm ++ '/' :: sy from rfl]
      rw [parseFlex_slash sd sm sy _ hsy hsyl hsd hsdl hsm hsml, hsyv, hsmv, hsdv,
        slashDayMonth_dmy d m hm2]
      dsimp only
      exact hmk
    | slashMDY =>
      rw [show formRender .slashMDY sy sm sd = sm ++ '/' :: sd ++ '/' :: sy from rfl]
      rw [parseFlex_slash sm sd sy _ hsy hsyl hsm hsml hsd hsdl, hsyv, hsmv, hsdv,
        slashDayMonth_mdy d m hm2]
      dsimp only
      exact hmk
  · cases f with
    | iso => exact format_iso _ y m d hcal
    | dot => exact format_dot _ y m d hcal
    | slashDMY => exact format_slashDMY _ y m d hcal
    | slashMDY => exact format_slashMDY _ y m d hcal


/-- C9 counterexample: the accepted string "0099-01-02" denotes the valid
calendar date 99-01-02, but `new Date(99, 0, 2)` applies the ECMAScript
two-digit-year rule, so the parsed instant is 1999-01-02 and formatting
with the same pattern yields "1999-01-02" -- a canonical string for a
different calendar date than the input denoted (year 1999, not 99). -/
theorem counterexample_C9 :
    (parseDateFlexible ('0' :: '0' :: '9' :: '9' :: '-' :: '0' :: '1' :: '-' :: '0' :: '2' ::[])
        (some (formPattern .iso))).map calTriple = some (1999, 1, 2) ∧
    formatDateByPattern
        (parseDateFlexible ('0' :: '0' :: '9' :: '9' :: '-' :: '0' :: '1' :: '-' :: '0' :: '2' ::[])
          (some (formPattern .iso)))
        (formPattern .iso)
      = ('1' :: '9' :: '9' :: '9' :: '-' :: '0' :: '1' :: '-' :: '0' :: '2' ::[]) ∧
    digitsToNat ('0' :: '0' :: '9' :: '9' ::[]) = 99 ∧ (99 : Nat) ≠ 1999 := by
  refine ⟨?_, ?_, by decide, by decide⟩ <;> decide

/-- Witness for C9 at the concrete date 2026-01-05 in dot form
("05.01.2026" with pattern "dd.mm.yyyy"). -/
theorem claim_C9_witness :
    ∃ dt,
      parseDateFlexible
          (formRender .dot ('2' :: '0' :: '2' :: '6' ::[]) ('0' :: '1' ::[]) ('0' :: '5' ::[]))
          (some (formPattern .dot)) = some dt ∧
      calTriple dt = (2026, 1, 5) ∧
      formatDateByPattern (some dt) (formPattern .dot) = formCanonical .dot 2026 1 5 :=
  claim_C9 .dot 2026 1 5 ('2' :: '0' :: '2' :: '6' ::[]) ('0' :: '1' ::[]) ('0' :: '5' ::[])
    (by decide) (by decide) (by decide) (by decide) (by decide) (by decide)
    (by unfold DigitStr; decide) (by decide) (by decide)
    (by unfold DigitStr; decide) (by exact ⟨by decide, by decide⟩) (by decide)
    (by unfold DigitStr; decide) (by exact ⟨by decide, by decide⟩) (by decide)

end TableCore
